import Mathlib

/-!
Verification development for the stencil module of the RBF repository
(`rbf/stencil.py`).

Modelling conventions:
* A point is a list of rational coordinates.  Euclidean distances are
  represented by their squares (the square root is strictly monotone and
  maps 0 to 0, so every decision the code takes — zero tests, infinity
  tests, comparisons, sort order — is preserved by this representation).
* `np.inf` is the top element of `WithTop ℚ`.
* The boundary-intersection primitive `rbf.geometry.intersection_count`
  is an external collaborator of the stencil module; it is an abstract
  parameter `icount` threaded through the definitions, so all theorems
  hold for every oracle.
* `scipy.spatial.cKDTree.query` is an external spatial index.  It is
  modelled from its documented contract (the k nearest points, distances
  ascending); ties are determinized by candidate index.  The adaptive
  search `nearestAux` is additionally parametrized over an arbitrary
  index oracle `knn` where a claim is about independence from the index.
* `networkx.node_connectivity` is an external graph library; it is
  modelled from its contract as the standard node connectivity of the
  undirected simple graph on the endpoints of the edge list.
* Errors raised by the Python code become an `Except` value with one
  constructor per raise site.  `N < 0` cannot occur since neighbor
  counts are `ℕ`.
-/

namespace RBF

/-- A D-dimensional point (coordinates as rationals). -/
abbrev Pt := List ℚ

/-- A (squared) distance extended with `np.inf`. -/
abbrev EDist := WithTop ℚ

/-- A stencil: one row of neighbor indices per node. -/
abbrev Stencil := List (List ℕ)

/-- The boundary-intersection oracle `rbf.geometry.intersection_count`,
restricted to a single segment: the number of times the segment from the
first point to the second crosses the boundary given by vertices and
simplices.  External collaborator, kept abstract. -/
abbrev ICount := Pt → Pt → List Pt → List (List ℤ) → ℕ

/-- Squared Euclidean distance between two points
(`np.sqrt(np.sum((pnts-test)**2,1))` without the monotone square root). -/
def sqdist (a b : Pt) : ℚ :=
  ((a.zip b).map (fun p => (p.1 - p.2) ^ 2)).sum

/-- Candidate order used to model `np.argsort` and the spatial index:
by distance value, ties broken by candidate position (a determinization
of the unspecified tie order; no claim depends on the tie order). -/
def idxRel (ds : List EDist) (i j : ℕ) : Prop :=
  ds.getD i ⊤ < ds.getD j ⊤ ∨ (ds.getD i ⊤ = ds.getD j ⊤ ∧ i ≤ j)

instance (ds : List EDist) : DecidableRel (idxRel ds) := fun _ _ =>
  inferInstanceAs (Decidable (_ ∨ _))

instance (ds : List EDist) : IsTrans ℕ (idxRel ds) where
  trans a b c hab hbc := by
    rcases hab with h1 | ⟨h1, h1'⟩ <;> rcases hbc with h2 | ⟨h2, h2'⟩
    · exact Or.inl (lt_trans h1 h2)
    · exact Or.inl (h2 ▸ h1)
    · exact Or.inl (h1 ▸ h2)
    · exact Or.inr ⟨h1.trans h2, le_trans h1' h2'⟩

instance (ds : List EDist) : IsTotal ℕ (idxRel ds) where
  total a b := by
    rcases lt_trichotomy (ds.getD a ⊤) (ds.getD b ⊤) with h | h | h
    · exact Or.inl (Or.inl h)
    · rcases le_total a b with h' | h'
      · exact Or.inl (Or.inr ⟨h, h'⟩)
      · exact Or.inr (Or.inr ⟨h.symm, h'⟩)
    · exact Or.inr (Or.inl h)

instance (ds : List EDist) : IsAntisymm ℕ (idxRel ds) where
  antisymm a b hab hba := by
    rcases hab with h1 | ⟨h1, h1'⟩ <;> rcases hba with h2 | ⟨h2, h2'⟩
    · exact absurd (lt_trans h1 h2) (lt_irrefl _)
    · exact absurd h1 (h2 ▸ lt_irrefl _)
    · exact absurd h2 (h1 ▸ lt_irrefl _)
    · exact le_antisymm h1' h2'

/-- `np.argsort` over a distance vector: the positions `0..len-1`
sorted by `idxRel`. -/
def argsortQ (ds : List EDist) : List ℕ :=
  List.insertionSort (idxRel ds) (List.range ds.length)

/-- Distance vector from a query point to every population point. -/
def keyOf (pop : List Pt) (q : Pt) : List EDist :=
  pop.map (fun p => ((sqdist q p : ℚ) : EDist))

/-- Model of `scipy.spatial.cKDTree(population).query(q, k)` (index part),
from its contract: the `k` nearest population indices, distances
ascending. -/
def kdtreeQuery (pop : List Pt) (q : Pt) (k : ℕ) : List ℕ :=
  (argsortQ (keyOf pop q)).take k

/-- Modelled from the spec: the first position of a closest candidate in
`cs`, part of the brute-force nearest-neighbor computation the spec
compares `nearest` against. -/
def bruteMin (ds : List EDist) : List ℕ → ℕ
  | [] => 0
  | [c] => c
  | c :: c' :: rest =>
    let m := bruteMin ds (c' :: rest)
    if ds.getD c ⊤ < ds.getD m ⊤ ∨ (ds.getD c ⊤ = ds.getD m ⊤ ∧ c ≤ m) then c else m

/-- Modelled from the spec: brute-force selection — repeatedly take the
closest remaining candidate.  The first argument is recursion fuel
(the candidate count). -/
def bruteSelect (ds : List EDist) : ℕ → List ℕ → List ℕ
  | 0, _ => []
  | _, [] => []
  | f + 1, c :: rest =>
    let m := bruteMin ds (c :: rest)
    m :: bruteSelect ds f ((c :: rest).erase m)

/-- Modelled from the spec: brute-force O(P) nearest-neighbor
computation — scan all population points and keep the `N` closest. -/
def bruteNN (pop : List Pt) (q : Pt) (N : ℕ) : List ℕ :=
  (bruteSelect (keyOf pop q) pop.length (List.range pop.length)).take N

/-- The distinct failure kinds raised by `rbf/stencil.py`. -/
inductive StencilError where
  /-- `cannot find %s nearest neighbors with %s points` (count, population). -/
  | invalidCount : ℕ → ℕ → StencilError
  /-- `cannot find %s nearest neighbors for point %s without crossing a
  boundary` (count, query point). -/
  | cannotCross : ℕ → Pt → StencilError
  /-- `cannot create a stencil with the desired connectivity`. -/
  | cannotConnect : StencilError
  /-- Fuel guard of the embedded loops; proven unreachable. -/
  | searchOverflow : StencilError
  deriving DecidableEq

/-- `True` at `np.inf`. -/
def isInfE (x : EDist) : Bool := decide (x = ⊤)

/-- `distance(test,pnts,vert,smp)`: squared Euclidean distance from `test`
to each point of `pnts`; infinite when the connecting segment crosses the
boundary.  The crossing count is only consulted for points at nonzero
distance (`cc[dist!=0.0] = intersection_count(...)`), and absent `vert`
or `smp` default to empty arrays. -/
def distance (icount : ICount) (vert : Option (List Pt))
    (smp : Option (List (List ℤ))) (test : Pt) (pnts : List Pt) : List EDist :=
  pnts.map fun p =>
    let d := sqdist test p
    if d ≠ 0 ∧ 0 < icount test p (vert.getD []) (smp.getD []) then ⊤
    else (d : EDist)

/-- `dist_i[excluding_bool[neighbors_i]] = np.inf`: force the distance of
every excluded candidate to infinity (positionally over the candidate
indices). -/
def maskExcl (exclB : ℕ → Bool) : List ℕ → List EDist → List EDist
  | j :: js, d :: ds => (if exclB j then ⊤ else d) :: maskExcl exclB js ds
  | _, _ => []

/-- The boundary-aware, exclusion-masked distance vector from a query
point to an index list of candidates (the value of `dist_i` right after
`dist_i = distance(...)` and `dist_i[excluding_bool[...]] = np.inf`). -/
def checkOf (icount : ICount) (vert : Option (List Pt))
    (smp : Option (List (List ℤ))) (exclB : ℕ → Bool) (qi : Pt)
    (pop : List Pt) (nbs : List ℕ) : List EDist :=
  maskExcl exclB nbs
    (distance icount vert smp qi (nbs.map (fun j => pop.getD j [])))

/-- The widening loop of `nearest` for one query point `qi`
(`while np.any(np.isinf(dist_i)): ...`).  `nb`/`d` are the row currently
stored in the output arrays, `check` is the boundary-aware distance
vector the loop condition inspects, `qs` is `query_size` and the first
argument is recursion fuel (proven sufficient at `pop.length + 2`). -/
def widenLoop (knn : List Pt → Pt → ℕ → List ℕ) (icount : ICount)
    (pop : List Pt) (N : ℕ) (vert : Option (List Pt))
    (smp : Option (List (List ℤ))) (exclB : ℕ → Bool) (qi : Pt) :
    ℕ → ℕ → List ℕ → List EDist → List EDist →
    Except StencilError (List ℕ × List EDist)
  | 0, _, nb, d, check =>
    if check.any isInfE then .error .searchOverflow else .ok (nb, d)
  | fuel + 1, qs, nb, d, check =>
    if check.any isInfE then
      let qs' := min (qs + N) pop.length
      let nbs := knn pop qi qs'
      let di := checkOf icount vert smp exclB qi pop nbs
      let perm := (argsortQ di).take N
      let nbR := perm.map (fun t => nbs.getD t 0)
      let dR := perm.map (fun t => di.getD t ⊤)
      if qs' = pop.length ∧ dR.any isInfE then .error (.cannotCross N qi)
      else widenLoop knn icount pop N vert smp exclB qi fuel qs' nbR dR dR
    else .ok (nb, d)

/-- The per-query-point slow path of `nearest`: compute the
boundary-aware, exclusion-masked distances to the currently stored
candidates and run the widening loop. -/
def widenRow (knn : List Pt → Pt → ℕ → List ℕ) (icount : ICount)
    (pop : List Pt) (N : ℕ) (vert : Option (List Pt))
    (smp : Option (List (List ℤ))) (exclB : ℕ → Bool) (qi : Pt)
    (nb0 : List ℕ) (d0 : List EDist) :
    Except StencilError (List ℕ × List EDist) :=
  let check := checkOf icount vert smp exclB qi pop nb0
  widenLoop knn icount pop N vert smp exclB qi (pop.length + 2) N nb0 d0 check

/-- Error-propagating map (the per-point loop of `nearest` stops at the
first raised error). -/
def mapME (f : α → Except ε β) : List α → Except ε (List β)
  | [] => .ok []
  | a :: l =>
    match f a with
    | .error e => .error e
    | .ok b =>
      match mapME f l with
      | .error e => .error e
      | .ok bs => .ok (b :: bs)

/-- `nearest(query,population,N,vert,smp,excluding)` parametrized over the
spatial-index oracle `knn` (the index part of `cKDTree.query`; the
distance part of the contract is determined by the indices).  Mirrors the
source: count validation, the `N == 0` special case that never touches
the index, the 1-D reshape at `N == 1`, the boundary-free fast path and
the per-point widening slow path. -/
def nearestAux (knn : List Pt → Pt → ℕ → List ℕ) (icount : ICount)
    (query population : List Pt) (N : ℕ) (vert : Option (List Pt))
    (smp : Option (List (List ℤ))) (excluding : Option (List ℕ)) :
    Except StencilError (Stencil × List (List EDist)) :=
  let P := population.length
  let exclB : ℕ → Bool := fun j => (excluding.getD []).contains j
  if N > P then .error (.invalidCount N P)
  else
    let nbRows : List (List ℕ) :=
      match N with
      | 0 => query.map (fun _ => [])
      -- at k = 1 the index returns 1-D arrays; `[·.headD 0]` is the
      -- source's `neighbors[:,None]` reshape back to (Q, 1)
      | 1 => query.map (fun qi => [(knn population qi 1).headD 0])
      | _ + 2 => query.map (fun qi => knn population qi N)
    let dRows : List (List EDist) :=
      (query.zip nbRows).map
        (fun p => p.2.map (fun j => ((sqdist p.1 (population.getD j [])) : EDist)))
    if vert.isNone && excluding.isNone then .ok (nbRows, dRows)
    else
      (mapME
        (fun t => widenRow knn icount population N vert smp exclB t.1.1 t.1.2 t.2)
        ((query.zip nbRows).zip dRows)).map
        (fun rows => (rows.map Prod.fst, rows.map Prod.snd))

/-- `nearest` with the spatial index instantiated to its contract model. -/
def nearest (icount : ICount) (query population : List Pt) (N : ℕ)
    (vert : Option (List Pt)) (smp : Option (List (List ℤ)))
    (excluding : Option (List ℕ)) :
    Except StencilError (Stencil × List (List EDist)) :=
  nearestAux kdtreeQuery icount query population N vert smp excluding

/-- `stencils_to_edges(stencils)`: `node1 = arange(N)[:,None].repeat(S)`,
`node2 = stencils`, flatten both and zip. -/
def stencils_to_edges (st : Stencil) : List (ℕ × ℕ) :=
  let S := (st.headD []).length
  (((List.range st.length).map (fun i => List.replicate S i)).flatten).zip
    st.flatten

/-- Spec-side description of the edge list: every (row index, entry) pair
of the stencil table, `k` being the index of the first row. -/
def edgePairsFrom (k : ℕ) : Stencil → List (ℕ × ℕ)
  | [] => []
  | row :: rest => row.map (fun j => (k, j)) ++ edgePairsFrom (k + 1) rest

/-- Spec-side description of the edge list of a stencil table. -/
def edgePairs (st : Stencil) : List (ℕ × ℕ) :=
  edgePairsFrom 0 st

/-- Adjacency in the undirected simple graph on an edge list (self loops
are not adjacencies). -/
def adjB (E : List (ℕ × ℕ)) (a b : ℕ) : Bool :=
  decide (a ≠ b) && (E.contains (a, b) || E.contains (b, a))

/-- One breadth step of reachability inside the vertex set `R`. -/
def stepR (E : List (ℕ × ℕ)) (R S : List ℕ) : List ℕ :=
  S ++ R.filter (fun v => !S.contains v && S.any (fun u => adjB E u v))

/-- Iterated breadth steps. -/
def reachIter (E : List (ℕ × ℕ)) (R : List ℕ) : ℕ → List ℕ → List ℕ
  | 0, S => S
  | n + 1, S => reachIter E R n (stepR E R S)

/-- Vertices reachable from `a` inside `R` (at most `R.length` steps are
needed). -/
def reachFrom (E : List (ℕ × ℕ)) (R : List ℕ) (a : ℕ) : List ℕ :=
  reachIter E R R.length [a]

/-- Whether the subgraph induced on the vertex list `R` is connected. -/
def connectedOnB (E : List (ℕ × ℕ)) (R : List ℕ) : Bool :=
  match R with
  | [] => true
  | a :: _ => R.all (fun b => (reachFrom E R a).contains b)

/-- The vertex list of an edge list (both endpoints, deduplicated), as
`networkx.Graph(edges)` collects its nodes. -/
def vertexList (E : List (ℕ × ℕ)) : List ℕ :=
  ((E.map Prod.fst) ++ (E.map Prod.snd)).dedup

/-- Modelled from the spec: `networkx.node_connectivity` — the standard
node connectivity, i.e. the least number of vertices whose removal
leaves a graph that is disconnected or has fewer than two vertices. -/
def nodeConnectivity (E : List (ℕ × ℕ)) : ℕ :=
  let V := vertexList E
  let good := V.sublists.filter (fun S =>
    let R := V.filter (fun v => !S.contains v)
    decide (R.length < 2) || !connectedOnB E R)
  (good.map List.length).foldr min V.length

/-- `connectivity(stencils)`: node connectivity of the graph on the edge
list of the stencils. -/
def connectivity (st : Stencil) : ℕ :=
  nodeConnectivity (stencils_to_edges st)

/-- The connectivity-target loop of `stencil_network`
(`while connectivity(s) < C: N += 1; ...`).  `n` is the current stencil
size, the first argument is recursion fuel (sufficient at
`nodes.length`). -/
def snLoop (icount : ICount) (nodes : List Pt) (vert : Option (List Pt))
    (smp : Option (List (List ℤ))) (c : ℕ) :
    ℕ → ℕ → Stencil → Except StencilError Stencil
  | 0, _, s => if connectivity s < c then .error .searchOverflow else .ok s
  | fuel + 1, n, s =>
    if connectivity s < c then
      if nodes.length < n + 1 then .error .cannotConnect
      else
        match nearest icount nodes nodes (n + 1) vert smp none with
        | .error e => .error e
        | .ok (s', _) => snLoop icount nodes vert smp c fuel (n + 1) s'
    else .ok s

/-- `stencil_network(nodes,C,N,vert,smp)`: connectivity-target mode when
`C` is given (starting at stencil size 2), fixed-size mode otherwise
(default size `min(len(nodes), 10)`). -/
def stencil_network (icount : ICount) (nodes : List Pt) (C : Option ℕ)
    (N : Option ℕ) (vert : Option (List Pt))
    (smp : Option (List (List ℤ))) : Except StencilError Stencil :=
  match C with
  | some c =>
    match nearest icount nodes nodes 2 vert smp none with
    | .error e => .error e
    | .ok (s, _) => snLoop icount nodes vert smp c nodes.length 2 s
  | none =>
    let n := N.getD (min nodes.length 10)
    match nearest icount nodes nodes n vert smp none with
    | .error e => .error e
    | .ok (s, _) => .ok s

/-! ### Generic list helpers -/

theorem zip_map_self (l : List α) (g : α → β) :
    l.zip (l.map g) = l.map (fun a => (a, g a)) := by
  induction l with
  | nil => rfl
  | cons a l ih => simp [ih]

theorem mapME_ok_of_const {f : α → Except ε β} {c : β} :
    ∀ {l : List α}, (∀ a ∈ l, f a = .ok c) →
      mapME f l = .ok (l.map fun _ => c)
  | [], _ => rfl
  | a :: l, h => by
    have ha := h a (List.mem_cons_self a l)
    have hl := mapME_ok_of_const (fun x hx => h x (List.mem_cons_of_mem a hx))
    simp only [mapME, ha, hl, List.map_cons]

theorem mapME_ok_length {f : α → Except ε β} :
    ∀ {l : List α} {r : List β}, mapME f l = .ok r → r.length = l.length
  | [], r, h => by
    simp only [mapME] at h
    cases h
    rfl
  | a :: l, r, h => by
    simp only [mapME] at h
    cases hfa : f a with
    | error e => rw [hfa] at h; cases h
    | ok b =>
      rw [hfa] at h
      cases hml : mapME f l with
      | error e => rw [hml] at h; cases h
      | ok bs =>
        rw [hml] at h
        cases h
        simp [mapME_ok_length hml]

theorem mapME_ok_get? {f : α → Except ε β} {l : List α} {r : List β}
    (h : mapME f l = .ok r) :
    ∀ (i : ℕ) (a : α), l[i]? = some a → ∃ b, r[i]? = some b ∧ f a = .ok b := by
  induction l generalizing r with
  | nil => intro i a hi; simp at hi
  | cons a l ih =>
    simp only [mapME] at h
    cases hfa : f a with
    | error e => rw [hfa] at h; cases h
    | ok b =>
      rw [hfa] at h
      cases hml : mapME f l with
      | error e => rw [hml] at h; cases h
      | ok bs =>
        rw [hml] at h
        cases h
        intro i x hi
        match i with
        | 0 =>
          simp only [List.getElem?_cons_zero, Option.some.injEq] at hi
          exact ⟨b, by simp, hi ▸ hfa⟩
        | n + 1 =>
          simp only [List.getElem?_cons_succ] at hi ⊢
          exact ih hml n x hi

theorem mapME_error_exists {f : α → Except ε β} {l : List α} {e : ε}
    (h : mapME f l = .error e) :
    ∃ (i : ℕ) (a : α), l[i]? = some a ∧ f a = .error e := by
  induction l with
  | nil =>
    simp only [mapME] at h
    exact absurd h (by simp)
  | cons a l ih =>
    simp only [mapME] at h
    cases hfa : f a with
    | error e' =>
      rw [hfa] at h
      cases h
      exact ⟨0, a, by simp, hfa⟩
    | ok b =>
      rw [hfa] at h
      cases hml : mapME f l with
      | error e' =>
        rw [hml] at h
        cases h
        obtain ⟨i, x, hx, hfx⟩ := ih hml
        exact ⟨i + 1, x, by simpa using hx, hfx⟩
      | ok bs => rw [hml] at h; cases h

/-! ### Claim C8: N = 0 is safe and index-free -/

theorem nearestAux_zero (knn : List Pt → Pt → ℕ → List ℕ) (icount : ICount)
    (query pop : List Pt) (vert : Option (List Pt))
    (smp : Option (List (List ℤ))) (excl : Option (List ℕ)) :
    nearestAux knn icount query pop 0 vert smp excl =
      .ok (query.map (fun _ => ([] : List ℕ)),
           query.map (fun _ => ([] : List EDist))) := by
  unfold nearestAux
  rw [if_neg (by omega : ¬ (0 > pop.length))]
  dsimp only
  rw [zip_map_self, List.map_map]
  have hrow : ((fun (p : Pt × List ℕ) =>
      p.2.map (fun j => ((sqdist p.1 (pop.getD j [])) : EDist))) ∘
      (fun a => (a, ([] : List ℕ)))) = fun _ => ([] : List EDist) := rfl
  rw [hrow]
  by_cases hb : (vert.isNone && excl.isNone) = true
  · rw [if_pos hb]
  · rw [if_neg hb]
    have hz : (query.map (fun a => (a, ([] : List ℕ)))).zip
        (query.map (fun _ => ([] : List EDist))) =
        query.map (fun a => ((a, ([] : List ℕ)), ([] : List EDist))) :=
      List.zip_map' _ _ query
    rw [hz]
    have hc : ∀ t ∈ query.map
        (fun a => ((a, ([] : List ℕ)), ([] : List EDist))),
        widenRow knn icount pop 0 vert smp
          (fun j => (excl.getD []).contains j) t.1.1 t.1.2 t.2 =
          .ok (([] : List ℕ), ([] : List EDist)) := by
      intro t ht
      obtain ⟨a, _, rfl⟩ := List.mem_map.1 ht
      rfl
    rw [mapME_ok_of_const hc]
    simp only [Except.map, List.map_map]
    rfl

/-- C8: with `N = 0`, `nearest` never raises and returns per-query empty
rows of shape `(Q, 0)`, for every boundary and exclusion set; the result
does not depend on the spatial-index oracle at all (first conjunct holds
for every `knn`), so no spatial query is consulted. -/
theorem c8_zero_neighbors_safe (knn : List Pt → Pt → ℕ → List ℕ)
    (icount : ICount) (query pop : List Pt) (vert : Option (List Pt))
    (smp : Option (List (List ℤ))) (excl : Option (List ℕ)) :
    nearestAux knn icount query pop 0 vert smp excl =
      .ok (query.map (fun _ => ([] : List ℕ)),
           query.map (fun _ => ([] : List EDist))) ∧
    nearest icount query pop 0 vert smp excl =
      .ok (query.map (fun _ => ([] : List ℕ)),
           query.map (fun _ => ([] : List EDist))) :=
  ⟨nearestAux_zero knn icount query pop vert smp excl,
   nearestAux_zero kdtreeQuery icount query pop vert smp excl⟩

/-! ### Claim C10: with no vertices and no exclusion set, `smp` is ignored -/

/-- C10: when `vert` and `excluding` are both absent the result of
`nearest` is the same for any two simplex arguments (the fast-path test
inspects only `vert` and `excluding`, so a boundary supplied via
simplices alone is ignored). -/
theorem c10_smp_ignored (icount : ICount) (query pop : List Pt) (N : ℕ)
    (smp₁ smp₂ : Option (List (List ℤ))) :
    nearest icount query pop N none smp₁ none =
      nearest icount query pop N none smp₂ none := by
  by_cases h : N > pop.length
  · simp [nearest, nearestAux, if_pos h]
  · simp [nearest, nearestAux, if_neg h]

/-! ### Claim C9: connectivity mode on fewer than 2 nodes -/

/-- C9: with fewer than two nodes, connectivity-target mode fails inside
`nearest` with the invalid-count error for the unconditional initial
stencil size 2, not with the connectivity error. -/
theorem c9_small_node_set (icount : ICount) (nodes : List Pt) (c : ℕ)
    (Nopt : Option ℕ) (vert : Option (List Pt))
    (smp : Option (List (List ℤ))) (h : nodes.length < 2) :
    stencil_network icount nodes (some c) Nopt vert smp =
      .error (.invalidCount 2 nodes.length) := by
  have h2 : 2 > nodes.length := h
  simp [stencil_network, nearest, nearestAux, if_pos h2]

/-- Witness for C9 at a one-node set. -/
theorem c9_small_node_set_witness :
    ([[(0 : ℚ), 0]] : List Pt).length < 2 ∧
    stencil_network (fun _ _ _ _ => 0) [[(0 : ℚ), 0]] (some 1) none none none =
      .error (.invalidCount 2 1) :=
  ⟨by decide, c9_small_node_set (fun _ _ _ _ => 0) [[(0 : ℚ), 0]] 1 none none
    none (by decide)⟩

/-! ### Properties of the argsort model -/

theorem argsortQ_perm (ds : List EDist) :
    List.Perm (argsortQ ds) (List.range ds.length) :=
  List.perm_insertionSort _ _

theorem argsortQ_sorted (ds : List EDist) :
    List.Sorted (idxRel ds) (argsortQ ds) :=
  List.sorted_insertionSort _ _

theorem argsortQ_length (ds : List EDist) :
    (argsortQ ds).length = ds.length := by
  simpa using (argsortQ_perm ds).length_eq

theorem argsortQ_nodup (ds : List EDist) : (argsortQ ds).Nodup :=
  ((argsortQ_perm ds).nodup_iff).2 (List.nodup_range _)

theorem mem_argsortQ {ds : List EDist} {i : ℕ} :
    i ∈ argsortQ ds ↔ i < ds.length := by
  rw [(argsortQ_perm ds).mem_iff, List.mem_range]

theorem idxRel_getD_le {ds : List EDist} {i j : ℕ} (h : idxRel ds i j) :
    ds.getD i ⊤ ≤ ds.getD j ⊤ := by
  rcases h with h | ⟨h, _⟩
  · exact le_of_lt h
  · exact le_of_eq h

theorem sorted_map_getD {ds : List EDist} {l : List ℕ}
    (h : List.Sorted (idxRel ds) l) :
    List.Sorted (· ≤ ·) (l.map (fun i => ds.getD i ⊤)) :=
  h.map _ (fun _ _ hr => idxRel_getD_le hr)

/-! ### The brute-force selection equals the sort-based model -/

theorem bruteMin_mem (ds : List EDist) :
    ∀ cs : List ℕ, cs ≠ [] → bruteMin ds cs ∈ cs := by
  intro cs
  induction cs with
  | nil => intro h; exact absurd rfl h
  | cons c rest ih =>
    intro _
    match rest with
    | [] => simp [bruteMin]
    | c' :: rest' =>
      rw [bruteMin]
      split
      · exact List.mem_cons_self _ _
      · exact List.mem_cons_of_mem _ (ih (by simp))

theorem bruteMin_le (ds : List EDist) :
    ∀ (cs : List ℕ) (x : ℕ), x ∈ cs → idxRel ds (bruteMin ds cs) x := by
  intro cs
  induction cs with
  | nil => intro x hx; simp at hx
  | cons c rest ih =>
    intro x hx
    match rest with
    | [] =>
      rcases List.mem_cons.1 hx with rfl | h
      · exact Or.inr ⟨rfl, le_refl _⟩
      · simp at h
    | c' :: rest' =>
      rw [bruteMin]
      split
      case isTrue hcm =>
        rcases List.mem_cons.1 hx with rfl | h
        · exact Or.inr ⟨rfl, le_refl _⟩
        · exact IsTrans.trans _ _ _ hcm (ih x h)
      case isFalse hcm =>
        rcases List.mem_cons.1 hx with rfl | h
        · exact (IsTotal.total (r := idxRel ds) x
            (bruteMin ds (c' :: rest'))).resolve_left hcm
        · exact ih x h

theorem bruteSelect_perm (ds : List EDist) :
    ∀ (fuel : ℕ) (cs : List ℕ), cs.length ≤ fuel →
      List.Perm (bruteSelect ds fuel cs) cs := by
  intro fuel
  induction fuel with
  | zero =>
    intro cs h
    rw [List.length_eq_zero.1 (Nat.le_zero.1 h)]
    rfl
  | succ f ih =>
    intro cs h
    match cs with
    | [] => rfl
    | c :: rest =>
      rw [bruteSelect]
      have hm : bruteMin ds (c :: rest) ∈ c :: rest :=
        bruteMin_mem ds _ (by simp)
      have hlen : ((c :: rest).erase (bruteMin ds (c :: rest))).length ≤ f := by
        rw [List.length_erase_of_mem hm]
        simpa using Nat.le_of_succ_le_succ (by simpa using h)
      exact ((ih _ hlen).cons _).trans (List.perm_cons_erase hm).symm

theorem bruteSelect_sorted (ds : List EDist) :
    ∀ (fuel : ℕ) (cs : List ℕ), cs.length ≤ fuel →
      List.Sorted (idxRel ds) (bruteSelect ds fuel cs) := by
  intro fuel
  induction fuel with
  | zero =>
    intro cs h
    rw [List.length_eq_zero.1 (Nat.le_zero.1 h)]
    exact List.sorted_nil
  | succ f ih =>
    intro cs h
    match cs with
    | [] => exact List.sorted_nil
    | c :: rest =>
      rw [bruteSelect]
      have hm : bruteMin ds (c :: rest) ∈ c :: rest :=
        bruteMin_mem ds _ (by simp)
      have hlen : ((c :: rest).erase (bruteMin ds (c :: rest))).length ≤ f := by
        rw [List.length_erase_of_mem hm]
        simpa using Nat.le_of_succ_le_succ (by simpa using h)
      rw [List.sorted_cons]
      refine ⟨fun b hb => ?_, ih _ hlen⟩
      have hb' : b ∈ (c :: rest).erase (bruteMin ds (c :: rest)) :=
        ((bruteSelect_perm ds f _ hlen).mem_iff).1 hb
      exact bruteMin_le ds _ _ (List.mem_of_mem_erase hb')

theorem bruteSelect_eq_insertionSort (ds : List EDist) (cs : List ℕ) :
    bruteSelect ds cs.length cs = List.insertionSort (idxRel ds) cs :=
  List.eq_of_perm_of_sorted
    ((bruteSelect_perm ds cs.length cs (le_refl _)).trans
      (List.perm_insertionSort _ _).symm)
    (bruteSelect_sorted ds cs.length cs (le_refl _))
    (List.sorted_insertionSort _ _)

theorem keyOf_length (pop : List Pt) (q : Pt) :
    (keyOf pop q).length = pop.length :=
  List.length_map _ _

theorem bruteNN_eq_kdtreeQuery (pop : List Pt) (q : Pt) (N : ℕ) :
    bruteNN pop q N = kdtreeQuery pop q N := by
  unfold bruteNN kdtreeQuery argsortQ
  rw [keyOf_length]
  have h := bruteSelect_eq_insertionSort (keyOf pop q) (List.range pop.length)
  rw [List.length_range] at h
  rw [h]

theorem getD_keyOf {pop : List Pt} {q : Pt} {j : ℕ} (h : j < pop.length) :
    (keyOf pop q).getD j ⊤ = ((sqdist q (pop.getD j []) : ℚ) : EDist) := by
  rw [List.getD_eq_getElem?_getD, List.getD_eq_getElem?_getD, keyOf,
    List.getElem?_map, List.getElem?_eq_getElem h]
  rfl

/-! ### Positional analysis of the masked boundary-aware distances -/

theorem maskExcl_length (exclB : ℕ → Bool) :
    ∀ (js : List ℕ) (ds : List EDist),
      (maskExcl exclB js ds).length = min js.length ds.length := by
  intro js
  induction js with
  | nil => intro ds; cases ds <;> simp [maskExcl]
  | cons j js ih =>
    intro ds
    cases ds with
    | nil => simp [maskExcl]
    | cons d ds => simp [maskExcl, ih ds]; omega

theorem maskExcl_getElem? (exclB : ℕ → Bool) :
    ∀ (js : List ℕ) (ds : List EDist) (p : ℕ) (v : EDist),
      (maskExcl exclB js ds)[p]? = some v →
      ∃ j d, js[p]? = some j ∧ ds[p]? = some d ∧
        v = if exclB j then ⊤ else d := by
  intro js
  induction js with
  | nil => intro ds p v h; cases ds <;> simp [maskExcl] at h
  | cons j js ih =>
    intro ds p v h
    cases ds with
    | nil => simp [maskExcl] at h
    | cons d ds =>
      match p with
      | 0 =>
        simp only [maskExcl, List.getElem?_cons_zero, Option.some.injEq] at h
        exact ⟨j, d, by simp, by simp, h.symm⟩
      | p + 1 =>
        simp only [maskExcl, List.getElem?_cons_succ] at h ⊢
        exact ih ds p v h

theorem checkOf_length (icount : ICount) (vert : Option (List Pt))
    (smp : Option (List (List ℤ))) (exclB : ℕ → Bool) (qi : Pt)
    (pop : List Pt) (nbs : List ℕ) :
    (checkOf icount vert smp exclB qi pop nbs).length = nbs.length := by
  simp [checkOf, maskExcl_length, distance]

theorem checkOf_getElem? {icount : ICount} {vert : Option (List Pt)}
    {smp : Option (List (List ℤ))} {exclB : ℕ → Bool} {qi : Pt}
    {pop : List Pt} {nbs : List ℕ} {p : ℕ} {v : EDist}
    (h : (checkOf icount vert smp exclB qi pop nbs)[p]? = some v)
    (hv : v ≠ ⊤) :
    ∃ j, nbs[p]? = some j ∧ exclB j = false ∧
      v = ((sqdist qi (pop.getD j []) : ℚ) : EDist) ∧
      (sqdist qi (pop.getD j []) ≠ 0 →
        icount qi (pop.getD j []) (vert.getD []) (smp.getD []) = 0) := by
  obtain ⟨j, d, hj, hd, hv'⟩ := maskExcl_getElem? exclB _ _ p v h
  refine ⟨j, hj, ?_⟩
  have hex : exclB j = false := by
    by_contra hex
    rw [Bool.not_eq_false] at hex
    rw [hex, if_pos rfl] at hv'
    exact hv hv'
  rw [hex] at hv'
  simp only [Bool.false_eq_true, if_false] at hv'
  subst hv'
  rw [distance, List.getElem?_map, List.getElem?_map, hj] at hd
  simp only [Option.map_some'] at hd
  have hd' := Option.some.inj hd
  by_cases hc : sqdist qi (pop.getD j []) ≠ 0 ∧
      0 < icount qi (pop.getD j []) (vert.getD []) (smp.getD [])
  · rw [if_pos hc] at hd'
    exact absurd hd'.symm hv
  · rw [if_neg hc] at hd'
    refine ⟨hex, hd'.symm, fun hs => ?_⟩
    rcases not_and_or.1 hc with h' | h'
    · exact absurd hs (by simpa using h')
    · omega

/-- The invariant satisfied by a row that the slow path of `nearest` can
return: no entry is excluded, the stored distance of entry `j` is the
(squared) Euclidean distance to point `j`, and whenever that distance is
nonzero the boundary oracle reports no crossing. -/
def GoodRow (icount : ICount) (vert : Option (List Pt))
    (smp : Option (List (List ℤ))) (exclB : ℕ → Bool) (pop : List Pt)
    (qi : Pt) (nbR : List ℕ) (dR : List EDist) : Prop :=
  ∀ (t j : ℕ), nbR[t]? = some j →
    exclB j = false ∧
    dR[t]? = some ((sqdist qi (pop.getD j []) : ℚ) : EDist) ∧
    (sqdist qi (pop.getD j []) ≠ 0 →
      icount qi (pop.getD j []) (vert.getD []) (smp.getD []) = 0)

theorem mem_of_getElem_opt {l : List α} {i : ℕ} {a : α}
    (h : l[i]? = some a) : a ∈ l :=
  List.get?_mem (by rw [List.get?_eq_getElem?]; exact h)

theorem good_of_check_all_finite {icount : ICount} {vert : Option (List Pt)}
    {smp : Option (List (List ℤ))} {exclB : ℕ → Bool} {pop : List Pt}
    {qi : Pt} {nbR : List ℕ}
    (h : ∀ v ∈ checkOf icount vert smp exclB qi pop nbR, v ≠ ⊤) :
    GoodRow icount vert smp exclB pop qi nbR
      (nbR.map (fun j => ((sqdist qi (pop.getD j []) : ℚ) : EDist))) := by
  intro t j hj
  have ht : t < nbR.length := by
    by_contra ht
    rw [List.getElem?_eq_none (by omega)] at hj
    cases hj
  have hc : t < (checkOf icount vert smp exclB qi pop nbR).length := by
    rw [checkOf_length]; exact ht
  have hv : (checkOf icount vert smp exclB qi pop nbR)[t]? =
      some ((checkOf icount vert smp exclB qi pop nbR).getD t ⊤) := by
    rw [List.getD_eq_getElem?_getD, List.getElem?_eq_getElem hc]
    rfl
  have hvne := h _ (mem_of_getElem_opt hv)
  obtain ⟨j', hj', hex, hval, hic⟩ := checkOf_getElem? hv hvne
  rw [hj] at hj'
  cases Option.some.inj hj'
  refine ⟨hex, ?_, hic⟩
  rw [List.getElem?_map, hj, Option.map_some']

theorem good_of_selected {icount : ICount} {vert : Option (List Pt)}
    {smp : Option (List (List ℤ))} {exclB : ℕ → Bool} {pop : List Pt}
    {qi : Pt} {nbs perm : List ℕ} {di : List EDist}
    (hdi : di = checkOf icount vert smp exclB qi pop nbs)
    (hmem : ∀ p ∈ perm, p < di.length)
    (hfin : ∀ v ∈ perm.map (fun t => di.getD t ⊤), v ≠ ⊤) :
    GoodRow icount vert smp exclB pop qi
      (perm.map (fun t => nbs.getD t 0))
      (perm.map (fun t => di.getD t ⊤)) := by
  subst hdi
  intro t j hj
  rw [List.getElem?_map] at hj
  cases hp : perm[t]? with
  | none => rw [hp] at hj; cases hj
  | some p =>
    rw [hp, Option.map_some'] at hj
    have hj' := Option.some.inj hj
    have hpmem : p ∈ perm := mem_of_getElem_opt hp
    have hplen := hmem p hpmem
    have hdv : (checkOf icount vert smp exclB qi pop nbs)[p]? =
        some ((checkOf icount vert smp exclB qi pop nbs).getD p ⊤) := by
      rw [List.getD_eq_getElem?_getD, List.getElem?_eq_getElem hplen]
      rfl
    have hvfin : (checkOf icount vert smp exclB qi pop nbs).getD p ⊤ ≠ ⊤ := by
      apply hfin
      exact List.mem_map.2 ⟨p, hpmem, rfl⟩
    obtain ⟨j', hj'', hex, hval, hic⟩ := checkOf_getElem? hdv hvfin
    have hjj : j = j' := by
      have hpn : p < nbs.length := by
        have := hplen
        rw [checkOf_length] at this
        exact this
      rw [← hj', List.getD_eq_getElem?_getD, hj'']
      rfl
    subst hjj
    refine ⟨hex, ?_, hic⟩
    rw [List.getElem?_map, hp, Option.map_some', hval]

theorem exceptMap_ok {g : α → β} {e : Except ε α} {x : β}
    (h : Except.map g e = .ok x) : ∃ y, e = .ok y ∧ x = g y := by
  cases e with
  | error e' => simp [Except.map] at h
  | ok y =>
    refine ⟨y, rfl, ?_⟩
    simpa [Except.map] using h.symm

theorem any_isInfE_false {l : List EDist} (h : l.any isInfE = false) :
    ∀ v ∈ l, v ≠ ⊤ := by
  intro v hv
  have := (List.any_eq_false).1 h v hv
  simpa [isInfE] using this

theorem widenLoop_ok_good {knn : List Pt → Pt → ℕ → List ℕ}
    {icount : ICount} {pop : List Pt} {N : ℕ} {vert : Option (List Pt)}
    {smp : Option (List (List ℤ))} {exclB : ℕ → Bool} {qi : Pt} :
    ∀ (fuel qs : ℕ) (nb : List ℕ) (d check : List EDist),
      (check.any isInfE = false →
        GoodRow icount vert smp exclB pop qi nb d) →
      ∀ {nbR : List ℕ} {dR : List EDist},
        widenLoop knn icount pop N vert smp exclB qi fuel qs nb d check =
          .ok (nbR, dR) →
        GoodRow icount vert smp exclB pop qi nbR dR := by
  intro fuel
  induction fuel with
  | zero =>
    intro qs nb d check hg nbR dR h
    simp only [widenLoop] at h
    by_cases hc : check.any isInfE = true
    · rw [if_pos hc] at h; cases h
    · rw [if_neg hc] at h
      cases h
      exact hg (Bool.not_eq_true _ ▸ hc)
  | succ f ih =>
    intro qs nb d check hg nbR dR h
    simp only [widenLoop] at h
    by_cases hc : check.any isInfE = true
    · rw [if_pos hc] at h
      set qsn := min (qs + N) pop.length with hqsn
      set nbs := knn pop qi qsn with hnbs
      set di := checkOf icount vert smp exclB qi pop nbs with hdi
      set perm := (argsortQ di).take N with hperm
      set nbR' := perm.map (fun t => nbs.getD t 0) with hnbR
      set dR' := perm.map (fun t => di.getD t ⊤) with hdR
      by_cases he : qsn = pop.length ∧ dR'.any isInfE
      · rw [if_pos he] at h; cases h
      · rw [if_neg he] at h
        refine ih qsn nbR' dR' dR' (fun hfin => ?_) h
        have hmem : ∀ p ∈ perm, p < di.length := by
          intro p hp
          have hp' : p ∈ argsortQ di := List.mem_of_mem_take hp
          exact mem_argsortQ.1 hp'
        have hfin' : ∀ v ∈ perm.map (fun t => di.getD t ⊤), v ≠ ⊤ := by
          rw [← hdR]
          exact any_isInfE_false hfin
        rw [hnbR, hdR]
        exact good_of_selected hdi hmem hfin'
    · rw [if_neg hc] at h
      cases h
      exact hg (Bool.not_eq_true _ ▸ hc)

/-- The per-query row of candidate indices produced by the spatial-index
phase of `nearest` (including the 1-D reshape at `N = 1`). -/
def nbRowFn (knn : List Pt → Pt → ℕ → List ℕ) (pop : List Pt) (N : ℕ) :
    Pt → List ℕ := fun qi =>
  match N with
  | 0 => []
  | 1 => [(knn pop qi 1).headD 0]
  | _ + 2 => knn pop qi N

/-- The distance row stored for a candidate row. -/
def dRowFn (pop : List Pt) : Pt × List ℕ → List EDist := fun p =>
  p.2.map (fun j => ((sqdist p.1 (pop.getD j [])) : EDist))

theorem nearestAux_unfold (knn : List Pt → Pt → ℕ → List ℕ)
    (icount : ICount) (query pop : List Pt) (N : ℕ)
    (vert : Option (List Pt)) (smp : Option (List (List ℤ)))
    (excl : Option (List ℕ)) (hNP : ¬ N > pop.length) :
    nearestAux knn icount query pop N vert smp excl =
      (if vert.isNone && excl.isNone then
        .ok (query.map (nbRowFn knn pop N),
             (query.zip (query.map (nbRowFn knn pop N))).map (dRowFn pop))
      else
        (mapME (fun t => widenRow knn icount pop N vert smp
            (fun j => (excl.getD []).contains j) t.1.1 t.1.2 t.2)
          ((query.zip (query.map (nbRowFn knn pop N))).zip
            ((query.zip (query.map (nbRowFn knn pop N))).map (dRowFn pop)))).map
          (fun rows => (rows.map Prod.fst, rows.map Prod.snd))) := by
  unfold nearestAux
  rw [if_neg hNP]
  match N with
  | 0 => rfl
  | 1 => rfl
  | n + 2 => rfl

theorem nearestAux_slow_good {knn : List Pt → Pt → ℕ → List ℕ}
    {icount : ICount} {query pop : List Pt} {N : ℕ}
    {vert : Option (List Pt)} {smp : Option (List (List ℤ))}
    {excl : Option (List ℕ)} {nb : Stencil} {ds : List (List EDist)}
    (h : nearestAux knn icount query pop N vert smp excl = .ok (nb, ds))
    (hslow : (vert.isNone && excl.isNone) = false) :
    nb.length = query.length ∧ ds.length = query.length ∧
    ∀ (i : ℕ) (qi : Pt) (nbr : List ℕ),
      query[i]? = some qi → nb[i]? = some nbr →
      ∃ dr, ds[i]? = some dr ∧
        GoodRow icount vert smp (fun j => (excl.getD []).contains j)
          pop qi nbr dr := by
  have hNP : ¬ N > pop.length := by
    by_contra hNP
    unfold nearestAux at h
    rw [if_pos hNP] at h
    cases h
  rw [nearestAux_unfold knn icount query pop N vert smp excl hNP, hslow] at h
  simp only [Bool.false_eq_true, if_false] at h
  obtain ⟨rows, hrows, hpair⟩ := exceptMap_ok h
  have hnb : nb = rows.map Prod.fst := congrArg Prod.fst hpair
  have hds : ds = rows.map Prod.snd := congrArg Prod.snd hpair
  have hzl : (query.zip (query.map (nbRowFn knn pop N))).length =
      query.length := by
    rw [List.length_zip, List.length_map]
    exact min_self _
  have hLl : ((query.zip (query.map (nbRowFn knn pop N))).zip
      ((query.zip (query.map (nbRowFn knn pop N))).map (dRowFn pop))).length =
      query.length := by
    rw [List.length_zip, List.length_map, min_self, hzl]
  have hrl : rows.length = query.length := by
    rw [mapME_ok_length hrows, hLl]
  refine ⟨by rw [hnb, List.length_map, hrl],
          by rw [hds, List.length_map, hrl], ?_⟩
  intro i qi nbr hqi hnbr
  have hMi : (query.map (nbRowFn knn pop N))[i]? =
      some (nbRowFn knn pop N qi) := by
    rw [List.getElem?_map, hqi, Option.map_some']
  have hzi : (query.zip (query.map (nbRowFn knn pop N)))[i]? =
      some (qi, nbRowFn knn pop N qi) :=
    List.getElem?_zip_eq_some.2 ⟨hqi, hMi⟩
  have hDi : ((query.zip (query.map (nbRowFn knn pop N))).map
      (dRowFn pop))[i]? = some (dRowFn pop (qi, nbRowFn knn pop N qi)) := by
    rw [List.getElem?_map, hzi, Option.map_some']
  have hLi : ((query.zip (query.map (nbRowFn knn pop N))).zip
      ((query.zip (query.map (nbRowFn knn pop N))).map (dRowFn pop)))[i]? =
      some ((qi, nbRowFn knn pop N qi),
            dRowFn pop (qi, nbRowFn knn pop N qi)) :=
    List.getElem?_zip_eq_some.2 ⟨hzi, hDi⟩
  obtain ⟨b, hb, hwr⟩ := mapME_ok_get? hrows i _ hLi
  have hnbr' : nbr = b.1 := by
    rw [hnb, List.getElem?_map, hb, Option.map_some'] at hnbr
    exact (Option.some.inj hnbr).symm
  refine ⟨b.2, by rw [hds, List.getElem?_map, hb, Option.map_some'], ?_⟩
  cases b with
  | mk b1 b2 =>
    subst hnbr'
    rw [widenRow] at hwr
    refine widenLoop_ok_good _ _ _ _ _ (fun hfin => ?_) hwr
    exact good_of_check_all_finite (any_isInfE_false hfin)

theorem snLoop_ok_from (icount : ICount) (nodes : List Pt)
    (vert : Option (List Pt)) (smp : Option (List (List ℤ))) (c : ℕ) :
    ∀ (fuel n : ℕ) (s s' : Stencil),
      snLoop icount nodes vert smp c fuel n s = .ok s' →
      s' = s ∨ ∃ k dx, nearest icount nodes nodes k vert smp none =
        .ok (s', dx) := by
  intro fuel
  induction fuel with
  | zero =>
    intro n s s' h
    simp only [snLoop] at h
    by_cases hc : connectivity s < c
    · rw [if_pos hc] at h; cases h
    · rw [if_neg hc] at h; cases h; exact Or.inl rfl
  | succ f ih =>
    intro n s s' h
    simp only [snLoop] at h
    by_cases hc : connectivity s < c
    · rw [if_pos hc] at h
      by_cases hn : nodes.length < n + 1
      · rw [if_pos hn] at h; cases h
      · rw [if_neg hn] at h
        cases hne : nearest icount nodes nodes (n + 1) vert smp none with
        | error e => rw [hne] at h; cases h
        | ok p =>
          rw [hne] at h
          cases p with
          | mk s'' dx =>
            rcases ih (n + 1) s'' s' h with rfl | hex
            · exact Or.inr ⟨n + 1, dx, hne⟩
            · exact Or.inr hex
    · rw [if_neg hc] at h; cases h; exact Or.inl rfl

theorem stencil_network_ok_from {icount : ICount} {nodes : List Pt}
    {C N : Option ℕ} {vert : Option (List Pt)}
    {smp : Option (List (List ℤ))} {s : Stencil}
    (h : stencil_network icount nodes C N vert smp = .ok s) :
    ∃ k dx, nearest icount nodes nodes k vert smp none = .ok (s, dx) := by
  cases C with
  | some c =>
    simp only [stencil_network] at h
    cases hne : nearest icount nodes nodes 2 vert smp none with
    | error e => rw [hne] at h; cases h
    | ok p =>
      rw [hne] at h
      cases p with
      | mk s0 dx0 =>
        rcases snLoop_ok_from icount nodes vert smp c nodes.length 2 s0 s h
          with rfl | hex
        · exact ⟨2, dx0, hne⟩
        · exact hex
  | none =>
    simp only [stencil_network] at h
    cases hne : nearest icount nodes nodes (N.getD (min nodes.length 10))
        vert smp none with
    | error e => rw [hne] at h; cases h
    | ok p =>
      rw [hne] at h
      cases p with
      | mk s0 dx0 =>
        cases h
        exact ⟨N.getD (min nodes.length 10), dx0, hne⟩

/-! ### Claim C1: returned pairs never cross the boundary -/

/-- C1: whenever `nearest` is called with a boundary `(vert, smp)` and
returns normally, every returned (query, neighbor) pair with nonzero
returned distance has intersection count 0 with the boundary; and every
row of a stencil returned by `stencil_network` with a boundary satisfies
the same non-crossing property (for neighbors at nonzero distance). -/
theorem c1_no_boundary_crossing (icount : ICount) :
    (∀ (query pop : List Pt) (N : ℕ) (v : List Pt)
       (smp : Option (List (List ℤ))) (excl : Option (List ℕ))
       (nb : Stencil) (ds : List (List EDist)),
       nearest icount query pop N (some v) smp excl = .ok (nb, ds) →
       ∀ (i t j : ℕ) (qi : Pt) (nbr : List ℕ) (dr : List EDist) (dv : EDist),
         query[i]? = some qi → nb[i]? = some nbr → ds[i]? = some dr →
         nbr[t]? = some j → dr[t]? = some dv → dv ≠ 0 →
         icount qi (pop.getD j []) v (smp.getD []) = 0) ∧
    (∀ (nodes : List Pt) (C N : Option ℕ) (v : List Pt)
       (smp : Option (List (List ℤ))) (s : Stencil),
       stencil_network icount nodes C N (some v) smp = .ok s →
       ∀ (i : ℕ) (qi : Pt) (row : List ℕ), nodes[i]? = some qi →
         s[i]? = some row → ∀ j ∈ row,
         sqdist qi (nodes.getD j []) ≠ 0 →
         icount qi (nodes.getD j []) v (smp.getD []) = 0) := by
  constructor
  · intro query pop N v smp excl nb ds h i t j qi nbr dr dv
    intro hqi hnbr hdr hj hdv hne
    have hslow : (((some v : Option (List Pt)).isNone &&
        (excl.isNone)) = false) := by simp
    obtain ⟨-, -, hrows⟩ := nearestAux_slow_good h hslow
    obtain ⟨dr', hdr', hg⟩ := hrows i qi nbr hqi hnbr
    rw [hdr] at hdr'
    cases Option.some.inj hdr'
    obtain ⟨-, hval, hic⟩ := hg t j hj
    rw [hdv] at hval
    have hdv' := Option.some.inj hval
    apply hic
    intro hz
    rw [hz] at hdv'
    exact hne (by rw [hdv']; exact WithTop.coe_zero)
  · intro nodes C N v smp s h i qi row hqi hrow j hj hne
    obtain ⟨k, dx, hnk⟩ := stencil_network_ok_from h
    have hslow : (((some v : Option (List Pt)).isNone &&
        ((none : Option (List ℕ)).isNone)) = false) := by simp
    obtain ⟨-, -, hrows⟩ := nearestAux_slow_good hnk hslow
    obtain ⟨dr, -, hg⟩ := hrows i qi row hqi hrow
    obtain ⟨t, ht⟩ := List.mem_iff_get?.1 hj
    rw [List.get?_eq_getElem?] at ht
    obtain ⟨-, -, hic⟩ := hg t j ht
    exact hic hne

/-- Witness for C1 on a two-point population with a boundary the oracle
never reports as crossed. -/
theorem c1_no_boundary_crossing_witness :
    (nearest (fun _ _ _ _ => 0) [[0], [1]] [[0], [1]] 2 (some [[5]])
        none none = .ok ([[0, 1], [1, 0]], [[(0 : EDist), 1], [0, 1]])) ∧
    (fun (_ _ : Pt) (_ : List Pt) (_ : List (List ℤ)) => 0)
      ([0] : Pt) (([[(0 : ℚ)], [1]] : List Pt).getD 1 []) [[5]]
      ((none : Option (List (List ℤ))).getD []) = 0 :=
  ⟨by with_unfolding_all rfl,
   (c1_no_boundary_crossing (fun _ _ _ _ => 0)).1 [[0], [1]] [[0], [1]] 2
     [[5]] none none [[0, 1], [1, 0]] [[(0 : EDist), 1], [0, 1]]
     (by with_unfolding_all rfl) 0 1 1 [0] [0, 1] [(0 : EDist), 1] 1
     rfl rfl rfl rfl rfl (by decide)⟩

/-! ### Claim C5: excluded indices never appear in the output -/

/-- C5: when `nearest` is called with an exclusion set smaller than the
population and returns normally, no excluded index appears in any
returned row. -/
theorem c5_exclusion (icount : ICount) (query pop : List Pt) (N : ℕ)
    (vert : Option (List Pt)) (smp : Option (List (List ℤ)))
    (ex : List ℕ) (nb : Stencil) (ds : List (List EDist))
    (hsize : ex.length < pop.length)
    (h : nearest icount query pop N vert smp (some ex) = .ok (nb, ds)) :
    ∀ row ∈ nb, ∀ j ∈ row, j ∉ ex := by
  intro row hrow j hj
  have hslow : ((vert.isNone &&
      ((some ex : Option (List ℕ)).isNone)) = false) := by simp
  obtain ⟨hlen, -, hrows⟩ := nearestAux_slow_good h hslow
  obtain ⟨i, hi⟩ := List.mem_iff_get?.1 hrow
  rw [List.get?_eq_getElem?] at hi
  have hilen : i < query.length := by
    rw [← hlen]
    by_contra hc
    rw [List.getElem?_eq_none (by omega)] at hi
    cases hi
  have hqi : query[i]? = some (query.getD i []) := by
    rw [List.getD_eq_getElem?_getD, List.getElem?_eq_getElem hilen]
    rfl
  obtain ⟨dr, -, hg⟩ := hrows i _ row hqi hi
  obtain ⟨t, ht⟩ := List.mem_iff_get?.1 hj
  rw [List.get?_eq_getElem?] at ht
  obtain ⟨hex, -, -⟩ := hg t j ht
  intro hmem
  have hcon : ((some ex : Option (List ℕ)).getD []).contains j = true := by
    simp only [Option.getD_some]
    exact List.elem_iff.2 hmem
  have hex' : ((some ex : Option (List ℕ)).getD []).contains j = false := hex
  rw [hcon] at hex'
  cases hex'

/-- Witness for C5: population of three collinear points, index 2
excluded; the excluded index appears in no returned row. -/
theorem c5_exclusion_witness :
    (([2] : List ℕ).length < ([[(0 : ℚ)], [1], [3]] : List Pt).length ∧
     nearest (fun _ _ _ _ => 0) [[0], [1], [3]] [[0], [1], [3]] 2 none none
       (some [2]) =
       .ok ([[0, 1], [1, 0], [1, 0]],
            [[(0 : EDist), 1], [0, 1], [4, 9]])) ∧
    ∀ row ∈ ([[0, 1], [1, 0], [1, 0]] : Stencil), ∀ j ∈ row, j ∉ [2] :=
  ⟨⟨by decide, by with_unfolding_all rfl⟩,
   c5_exclusion (fun _ _ _ _ => 0) [[0], [1], [3]] [[0], [1], [3]] 2 none
     none [2] [[0, 1], [1, 0], [1, 0]] [[(0 : EDist), 1], [0, 1], [4, 9]]
     (by decide) (by with_unfolding_all rfl)⟩

/-! ### Claim C2: the widening loop terminates or raises -/

theorem all_not_inf_of_any_false {l : List EDist}
    (h : l.any isInfE = false) : l.all (fun x => !isInfE x) = true := by
  rw [List.all_eq_true]
  intro x hx
  rw [Bool.not_eq_true']
  by_contra hc
  rw [Bool.not_eq_false] at hc
  rw [List.any_eq_false] at h
  exact absurd hc (h x hx)

theorem ne_nil_of_any_true {p : α → Bool} {l : List α}
    (h : l.any p = true) : l ≠ [] := by
  intro hl
  rw [hl] at h
  cases h

theorem checkOf_ne_nil_length {icount : ICount} {vert : Option (List Pt)}
    {smp : Option (List (List ℤ))} {exclB : ℕ → Bool} {qi : Pt}
    {pop : List Pt} {nbs : List ℕ}
    (h : checkOf icount vert smp exclB qi pop nbs ≠ []) : nbs ≠ [] := by
  intro hn
  apply h
  rw [hn]
  rfl

theorem widenLoop_dichot {knn : List Pt → Pt → ℕ → List ℕ}
    {icount : ICount} {pop : List Pt} {N : ℕ} {vert : Option (List Pt)}
    {smp : Option (List (List ℤ))} {exclB : ℕ → Bool} {qi : Pt} :
    ∀ (fuel qs : ℕ) (nb : List ℕ) (d check : List EDist),
      qs ≤ pop.length →
      (check ≠ [] → 1 ≤ N) →
      pop.length + 1 ≤ fuel + qs →
      (d.all (fun x => !isInfE x) = true ∨ d = check) →
      (∃ nbR dR,
        widenLoop knn icount pop N vert smp exclB qi fuel qs nb d check =
          .ok (nbR, dR) ∧ dR.all (fun x => !isInfE x) = true) ∨
      widenLoop knn icount pop N vert smp exclB qi fuel qs nb d check =
        .error (.cannotCross N qi) := by
  intro fuel
  induction fuel with
  | zero =>
    intro qs nb d check hqs hN hfuel hinv
    omega
  | succ f ih =>
    intro qs nb d check hqs hN hfuel hinv
    simp only [widenLoop]
    by_cases hc : check.any isInfE = true
    · rw [if_pos hc]
      have hN1 : 1 ≤ N := hN (ne_nil_of_any_true hc)
      set qsn := min (qs + N) pop.length with hqsn
      set nbs := knn pop qi qsn with hnbs
      set di := checkOf icount vert smp exclB qi pop nbs with hdi
      set perm := (argsortQ di).take N with hperm
      set nbR' := perm.map (fun t => nbs.getD t 0) with hnbR
      set dR' := perm.map (fun t => di.getD t ⊤) with hdR
      by_cases he : qsn = pop.length ∧ dR'.any isInfE
      · rw [if_pos he]
        exact Or.inr rfl
      · rw [if_neg he]
        by_cases hany : dR'.any isInfE = true
        · have hne : qsn ≠ pop.length := fun hq => he ⟨hq, hany⟩
          have hqs' : qsn ≤ pop.length := min_le_right _ _
          have hstep : qs + 1 ≤ qsn := by
            rw [hqsn]
            omega
          exact ih qsn nbR' dR' dR' hqs' (fun _ => hN1)
            (by omega) (Or.inr rfl)
        · rw [Bool.not_eq_true] at hany
          left
          refine ⟨nbR', dR', ?_, all_not_inf_of_any_false hany⟩
          cases f with
          | zero => simp only [widenLoop, hany]; rfl
          | succ f' => simp only [widenLoop, hany]; rfl
    · rw [if_neg hc]
      rw [Bool.not_eq_true] at hc
      left
      refine ⟨nb, d, rfl, ?_⟩
      rcases hinv with hfin | rfl
      · exact hfin
      · exact all_not_inf_of_any_false hc

theorem nbRowFn_length {pop : List Pt} {N : ℕ} (qi : Pt)
    (hNP : ¬ N > pop.length) :
    (nbRowFn kdtreeQuery pop N qi).length = N := by
  match N with
  | 0 => rfl
  | 1 => rfl
  | n + 2 =>
    show (kdtreeQuery pop qi (n + 2)).length = n + 2
    rw [kdtreeQuery, List.length_take, argsortQ_length, keyOf_length]
    omega

theorem dRowFn_all_finite (pop : List Pt) (p : Pt × List ℕ) :
    (dRowFn pop p).all (fun x => !isInfE x) = true := by
  rw [List.all_eq_true]
  intro x hx
  obtain ⟨j, _, rfl⟩ := List.mem_map.1 hx
  rw [Bool.not_eq_true']
  simp [isInfE]

theorem widenRow_dichot {knn : List Pt → Pt → ℕ → List ℕ}
    {icount : ICount} {pop : List Pt} {N : ℕ} {vert : Option (List Pt)}
    {smp : Option (List (List ℤ))} {exclB : ℕ → Bool} {qi : Pt}
    {nb0 : List ℕ} {d0 : List EDist} (hNP : N ≤ pop.length)
    (hlen : nb0.length = N) (hfin : d0.all (fun x => !isInfE x) = true) :
    (∃ nbR dR,
      widenRow knn icount pop N vert smp exclB qi nb0 d0 = .ok (nbR, dR) ∧
      dR.all (fun x => !isInfE x) = true) ∨
    widenRow knn icount pop N vert smp exclB qi nb0 d0 =
      .error (.cannotCross N qi) := by
  rw [widenRow]
  apply widenLoop_dichot (pop.length + 2) N nb0 d0 _ hNP
  · intro hne
    have hlen' : (checkOf icount vert smp exclB qi pop nb0).length = N := by
      rw [checkOf_length, hlen]
    rcases Nat.eq_zero_or_pos N with rfl | hpos
    · exact absurd (List.length_eq_zero.1 hlen') hne
    · exact hpos
  · omega
  · exact Or.inl hfin

theorem nearest_error_classify (icount' : ICount) (query pop' : List Pt)
    (N' : ℕ) (vert' : Option (List Pt)) (smp' : Option (List (List ℤ)))
    (excl' : Option (List ℕ)) (e : StencilError)
    (h : nearest icount' query pop' N' vert' smp' excl' = .error e) :
    e = .invalidCount N' pop'.length ∨
    ∃ (i : ℕ) (qi' : Pt), query[i]? = some qi' ∧
      e = .cannotCross N' qi' := by
  by_cases hNP : N' > pop'.length
  · unfold nearest nearestAux at h
    rw [if_pos hNP] at h
    cases h
    exact Or.inl rfl
  · rw [nearest, nearestAux_unfold kdtreeQuery icount' query pop' N'
      vert' smp' excl' hNP] at h
    by_cases hb : (vert'.isNone && excl'.isNone) = true
    · rw [if_pos hb] at h; cases h
    · rw [Bool.not_eq_true] at hb
      rw [hb] at h
      simp only [Bool.false_eq_true, if_false] at h
      have herr : mapME (fun t => widenRow kdtreeQuery icount' pop' N'
          vert' smp' (fun j => (excl'.getD []).contains j) t.1.1 t.1.2 t.2)
          ((query.zip (query.map (nbRowFn kdtreeQuery pop' N'))).zip
            ((query.zip (query.map (nbRowFn kdtreeQuery pop' N'))).map
              (dRowFn pop'))) = .error e := by
        cases hm : mapME (fun t => widenRow kdtreeQuery icount' pop' N'
            vert' smp' (fun j => (excl'.getD []).contains j) t.1.1 t.1.2 t.2)
            ((query.zip (query.map (nbRowFn kdtreeQuery pop' N'))).zip
              ((query.zip (query.map (nbRowFn kdtreeQuery pop' N'))).map
                (dRowFn pop'))) with
        | error e' =>
          rw [hm] at h
          simp only [Except.map] at h
          cases h
          rfl
        | ok rows =>
          rw [hm] at h
          simp only [Except.map] at h
          cases h
      obtain ⟨i, x, hx, hfx⟩ := mapME_error_exists herr
      obtain ⟨hx1, hx2⟩ := List.getElem?_zip_eq_some.1 hx
      obtain ⟨hq, hM⟩ := List.getElem?_zip_eq_some.1 hx1
      rw [List.getElem?_map, hx1, Option.map_some'] at hx2
      rw [List.getElem?_map, hq, Option.map_some'] at hM
      have hx12 : x.1.2 = nbRowFn kdtreeQuery pop' N' x.1.1 :=
        (Option.some.inj hM).symm
      have hx2' : x.2 = dRowFn pop' x.1 := (Option.some.inj hx2).symm
      have hdich := @widenRow_dichot kdtreeQuery icount' pop' N' vert'
        smp' (fun j => (excl'.getD []).contains j) x.1.1 x.1.2 x.2
        (by omega)
        (by rw [hx12]; exact nbRowFn_length x.1.1 hNP)
        (by rw [hx2']; exact dRowFn_all_finite pop' x.1)
      rcases hdich with ⟨nbR, dR, hok, -⟩ | herr'
      · rw [hok] at hfx; cases hfx
      · rw [herr'] at hfx
        have he := Except.error.inj hfx
        exact Or.inr ⟨i, x.1.1, hq, he.symm⟩

/-- C2: the widening loop of `nearest` always terminates: either it
raises the boundary error carrying the requested count `N` and the
offending query point (which ends the search), or it returns a row all
of whose `N` kept distances are finite.  Consequently every error
`nearest` itself raises is the invalid-count error or the boundary error
naming `N` and one of the query points. -/
theorem c2_widening_terminal (knn : List Pt → Pt → ℕ → List ℕ)
    (icount : ICount) (pop : List Pt) (N : ℕ) (vert : Option (List Pt))
    (smp : Option (List (List ℤ))) (exclB : ℕ → Bool) (qi : Pt)
    (nb0 : List ℕ) (d0 : List EDist) :
    (N ≤ pop.length → nb0.length = N →
      d0.all (fun x => !isInfE x) = true →
      (∃ nbR dR,
        widenRow knn icount pop N vert smp exclB qi nb0 d0 = .ok (nbR, dR) ∧
        dR.all (fun x => !isInfE x) = true) ∨
      widenRow knn icount pop N vert smp exclB qi nb0 d0 =
        .error (.cannotCross N qi)) ∧
    (∀ (icount' : ICount) (query pop' : List Pt) (N' : ℕ)
       (vert' : Option (List Pt)) (smp' : Option (List (List ℤ)))
       (excl' : Option (List ℕ)) (e : StencilError),
       nearest icount' query pop' N' vert' smp' excl' = .error e →
       e = .invalidCount N' pop'.length ∨
       ∃ (i : ℕ) (qi' : Pt), query[i]? = some qi' ∧
         e = .cannotCross N' qi') := by
  constructor
  · exact fun hNP hlen hfin => widenRow_dichot hNP hlen hfin
  · exact fun icount' query pop' N' vert' smp' excl' e h =>
      nearest_error_classify icount' query pop' N' vert' smp' excl' e h

/-- Witness for C2: a boundary the oracle reports as always crossed
forces the widening loop to exhaust the population and raise the error
naming the requested count and the query point. -/
theorem c2_widening_terminal_witness :
    (2 ≤ ([[(0 : ℚ)], [1]] : List Pt).length ∧
     ([0, 1] : List ℕ).length = 2 ∧
     ([(0 : EDist), 1]).all (fun x => !isInfE x) = true ∧
     ((∃ nbR dR,
        widenRow kdtreeQuery (fun _ _ _ _ => 1) [[0], [1]] 2 (some [[5]])
          none (fun _ => false) [0] [0, 1] [(0 : EDist), 1] =
          .ok (nbR, dR) ∧ dR.all (fun x => !isInfE x) = true) ∨
      widenRow kdtreeQuery (fun _ _ _ _ => 1) [[0], [1]] 2 (some [[5]])
        none (fun _ => false) [0] [0, 1] [(0 : EDist), 1] =
        .error (.cannotCross 2 [0]))) ∧
    (nearest (fun _ _ _ _ => 1) [[0], [1]] [[0], [1]] 2 (some [[5]]) none
        none = .error (.cannotCross 2 [0]) ∧
     ((StencilError.cannotCross 2 [0]) = .invalidCount 2 2 ∨
      ∃ (i : ℕ) (qi : Pt), ([[(0 : ℚ)], [1]] : List Pt)[i]? = some qi ∧
        (StencilError.cannotCross 2 [0]) = .cannotCross 2 qi)) :=
  ⟨⟨by decide, by decide, by decide,
    (c2_widening_terminal kdtreeQuery (fun _ _ _ _ => 1) [[0], [1]] 2
      (some [[5]]) none (fun _ => false) [0] [0, 1] [(0 : EDist), 1]).1
      (by decide) (by decide) (by decide)⟩,
   ⟨by with_unfolding_all rfl,
    (c2_widening_terminal kdtreeQuery (fun _ _ _ _ => 1) [[0], [1]] 2
      (some [[5]]) none (fun _ => false) [0] [0, 1] [(0 : EDist), 1]).2
      (fun _ _ _ _ => 1) [[0], [1]] [[0], [1]] 2 (some [[5]]) none none
      (.cannotCross 2 [0]) (by with_unfolding_all rfl)⟩⟩

/-! ### Claim C7: output shapes and ascending distance rows -/

theorem mapME_ok_mem {f : α → Except ε β} {l : List α} {r : List β}
    (h : mapME f l = .ok r) {b : β} (hb : b ∈ r) :
    ∃ a ∈ l, f a = .ok b := by
  obtain ⟨i, hi⟩ := List.mem_iff_get?.1 hb
  rw [List.get?_eq_getElem?] at hi
  have hil : i < l.length := by
    rw [← mapME_ok_length h]
    by_contra hc
    rw [List.getElem?_eq_none (by omega)] at hi
    cases hi
  have hia : l[i]? = some l[i] := List.getElem?_eq_getElem hil
  obtain ⟨b', hb', hf⟩ := mapME_ok_get? h i _ hia
  rw [hi] at hb'
  cases Option.some.inj hb'
  exact ⟨l[i], mem_of_getElem_opt hia, hf⟩

theorem dRowFn_eq_map_keyOf {pop : List Pt} {qi : Pt} {row : List ℕ}
    (h : ∀ j ∈ row, j < pop.length) :
    dRowFn pop (qi, row) = row.map (fun i => (keyOf pop qi).getD i ⊤) := by
  apply List.map_congr_left
  intro j hj
  exact (getD_keyOf (h j hj)).symm

theorem sorted_dRowFn_of_sorted {pop : List Pt} {qi : Pt} {row : List ℕ}
    (hmem : ∀ j ∈ row, j < pop.length)
    (hs : List.Sorted (idxRel (keyOf pop qi)) row) :
    List.Sorted (· ≤ ·) (dRowFn pop (qi, row)) := by
  rw [dRowFn_eq_map_keyOf hmem]
  exact sorted_map_getD hs

theorem nbRowFn_mem_lt {pop : List Pt} {N : ℕ} {qi : Pt} {j : ℕ}
    (hj : j ∈ nbRowFn kdtreeQuery pop N qi) (hNP : N ≤ pop.length) :
    j < pop.length := by
  match N with
  | 0 => cases hj
  | 1 =>
    rcases List.mem_singleton.1 hj with rfl
    have hlen : (kdtreeQuery pop qi 1).length = 1 := by
      rw [kdtreeQuery, List.length_take, argsortQ_length, keyOf_length]
      omega
    cases hl : kdtreeQuery pop qi 1 with
    | nil => rw [hl] at hlen; cases hlen
    | cons a l =>
      have ha : a ∈ kdtreeQuery pop qi 1 := by rw [hl]; simp
      rw [kdtreeQuery] at ha
      have halt := mem_argsortQ.1 (List.mem_of_mem_take ha)
      rw [keyOf_length] at halt
      simpa using halt
  | n + 2 =>
    have hj' : j ∈ nbRowFn kdtreeQuery pop (n + 2) qi := hj
    rw [nbRowFn] at hj'
    have hj'' : j ∈ kdtreeQuery pop qi (n + 2) := hj'
    rw [kdtreeQuery] at hj''
    have halt := mem_argsortQ.1 (List.mem_of_mem_take hj'')
    rwa [keyOf_length] at halt

theorem nbRowFn_sorted (pop : List Pt) (N : ℕ) (qi : Pt) :
    List.Sorted (· ≤ ·) (dRowFn pop (qi, nbRowFn kdtreeQuery pop N qi)) := by
  match N with
  | 0 => exact List.sorted_nil
  | 1 => exact List.sorted_singleton _
  | n + 2 =>
    have hmem : ∀ j ∈ nbRowFn kdtreeQuery pop (n + 2) qi, j < pop.length := by
      intro j hj
      have hj' : j ∈ argsortQ (keyOf pop qi) := List.mem_of_mem_take hj
      have := mem_argsortQ.1 hj'
      rwa [keyOf_length] at this
    apply sorted_dRowFn_of_sorted hmem
    exact (argsortQ_sorted (keyOf pop qi)).sublist (List.take_sublist _ _)

theorem widenLoop_ok_shape {icount : ICount} {pop : List Pt} {N : ℕ}
    {vert : Option (List Pt)} {smp : Option (List (List ℤ))}
    {exclB : ℕ → Bool} {qi : Pt} (hNP : N ≤ pop.length) :
    ∀ (fuel qs : ℕ) (nb : List ℕ) (d check : List EDist),
      nb.length = N → d.length = N → List.Sorted (· ≤ ·) d →
      ∀ {nbR : List ℕ} {dR : List EDist},
        widenLoop kdtreeQuery icount pop N vert smp exclB qi fuel qs nb d
          check = .ok (nbR, dR) →
        nbR.length = N ∧ dR.length = N ∧ List.Sorted (· ≤ ·) dR := by
  intro fuel
  induction fuel with
  | zero =>
    intro qs nb d check hnb hd hs nbR dR h
    simp only [widenLoop] at h
    by_cases hc : check.any isInfE = true
    · rw [if_pos hc] at h; cases h
    · rw [if_neg hc] at h
      cases h
      exact ⟨hnb, hd, hs⟩
  | succ f ih =>
    intro qs nb d check hnb hd hs nbR dR h
    simp only [widenLoop] at h
    by_cases hc : check.any isInfE = true
    · rw [if_pos hc] at h
      set qsn := min (qs + N) pop.length with hqsn
      set nbs := kdtreeQuery pop qi qsn with hnbs
      set di := checkOf icount vert smp exclB qi pop nbs with hdi
      set perm := (argsortQ di).take N with hperm
      set nbR' := perm.map (fun t => nbs.getD t 0) with hnbR
      set dR' := perm.map (fun t => di.getD t ⊤) with hdR
      by_cases he : qsn = pop.length ∧ dR'.any isInfE
      · rw [if_pos he] at h; cases h
      · rw [if_neg he] at h
        have hqsn' : qsn ≤ pop.length := min_le_right _ _
        have hnbs_len : nbs.length = qsn := by
          rw [hnbs, kdtreeQuery, List.length_take, argsortQ_length,
            keyOf_length]
          omega
        have hdi_len : di.length = qsn := by
          rw [hdi, checkOf_length, hnbs_len]
        have hperm_len : perm.length = N := by
          rw [hperm, List.length_take, argsortQ_length, hdi_len]
          have : N ≤ qsn := by omega
          omega
        have hnbR_len : nbR'.length = N := by
          rw [hnbR, List.length_map, hperm_len]
        have hdR_len : dR'.length = N := by
          rw [hdR, List.length_map, hperm_len]
        have hsort : List.Sorted (· ≤ ·) dR' := by
          rw [hdR]
          apply sorted_map_getD
          rw [hperm]
          exact (argsortQ_sorted di).sublist (List.take_sublist _ _)
        exact ih qsn nbR' dR' dR' hnbR_len hdR_len hsort h
    · rw [if_neg hc] at h
      cases h
      exact ⟨hnb, hd, hs⟩

theorem dRowFn_length (pop : List Pt) (p : Pt × List ℕ) :
    (dRowFn pop p).length = p.2.length :=
  List.length_map _ _

/-- C7: whenever `nearest` returns normally for `Q` query points and
count `N`, both returned arrays have shape exactly `(Q, N)` — including
the reshaped `N = 1` case — and every distance row is ascending. -/
theorem c7_shape_sorted (icount : ICount) (query pop : List Pt) (N : ℕ)
    (vert : Option (List Pt)) (smp : Option (List (List ℤ)))
    (excl : Option (List ℕ)) (nb : Stencil) (ds : List (List EDist))
    (h : nearest icount query pop N vert smp excl = .ok (nb, ds)) :
    nb.length = query.length ∧ ds.length = query.length ∧
    (∀ r ∈ nb, r.length = N) ∧
    (∀ r ∈ ds, r.length = N ∧ List.Sorted (· ≤ ·) r) := by
  have hNP : ¬ N > pop.length := by
    by_contra hNP
    unfold nearest nearestAux at h
    rw [if_pos hNP] at h
    cases h
  have h0 := h
  rw [nearest, nearestAux_unfold kdtreeQuery icount query pop N vert smp
    excl hNP] at h
  by_cases hb : (vert.isNone && excl.isNone) = true
  · rw [if_pos hb] at h
    have hpair := Except.ok.inj h
    have hnb : query.map (nbRowFn kdtreeQuery pop N) = nb :=
      congrArg Prod.fst hpair
    have hds : (query.zip (query.map (nbRowFn kdtreeQuery pop N))).map
        (dRowFn pop) = ds := congrArg Prod.snd hpair
    refine ⟨by rw [← hnb, List.length_map], ?_, ?_, ?_⟩
    · rw [← hds, List.length_map, List.length_zip, List.length_map,
        min_self]
    · intro r hr
      rw [← hnb] at hr
      obtain ⟨qi, -, rfl⟩ := List.mem_map.1 hr
      exact nbRowFn_length qi hNP
    · intro r hr
      rw [← hds, zip_map_self, List.map_map] at hr
      obtain ⟨qi, -, rfl⟩ := List.mem_map.1 hr
      constructor
      · show (dRowFn pop (qi, nbRowFn kdtreeQuery pop N qi)).length = N
        rw [dRowFn_length]
        exact nbRowFn_length qi hNP
      · exact nbRowFn_sorted pop N qi
  · rw [Bool.not_eq_true] at hb
    obtain ⟨hl1, hl2, -⟩ := nearestAux_slow_good h0 hb
    rw [hb] at h
    simp only [Bool.false_eq_true, if_false] at h
    obtain ⟨rows, hrows, hpair⟩ := exceptMap_ok h
    have hnb : nb = rows.map Prod.fst := congrArg Prod.fst hpair
    have hds : ds = rows.map Prod.snd := congrArg Prod.snd hpair
    have hL : (query.zip (query.map (nbRowFn kdtreeQuery pop N))).zip
        ((query.zip (query.map (nbRowFn kdtreeQuery pop N))).map
          (dRowFn pop)) =
        query.map (fun qi => ((qi, nbRowFn kdtreeQuery pop N qi),
          dRowFn pop (qi, nbRowFn kdtreeQuery pop N qi))) := by
      rw [zip_map_self, zip_map_self, List.map_map]
      rfl
    rw [hL] at hrows
    have hrow_shape : ∀ b ∈ rows, b.1.length = N ∧ b.2.length = N ∧
        List.Sorted (· ≤ ·) b.2 := by
      intro b hbr
      obtain ⟨a, ha, hfa⟩ := mapME_ok_mem hrows hbr
      obtain ⟨qi, -, rfl⟩ := List.mem_map.1 ha
      rw [widenRow] at hfa
      cases b with
      | mk b1 b2 =>
        exact widenLoop_ok_shape (by omega) _ _ _ _ _
          (nbRowFn_length qi hNP)
          (by rw [dRowFn_length]; exact nbRowFn_length qi hNP)
          (nbRowFn_sorted pop N qi) hfa
    refine ⟨hl1, hl2, ?_, ?_⟩
    · intro r hr
      rw [hnb] at hr
      obtain ⟨b, hbr, rfl⟩ := List.mem_map.1 hr
      exact (hrow_shape b hbr).1
    · intro r hr
      rw [hds] at hr
      obtain ⟨b, hbr, rfl⟩ := List.mem_map.1 hr
      exact ⟨(hrow_shape b hbr).2.1, (hrow_shape b hbr).2.2⟩

/-- Witness for C7 at the reshaped `N = 1` case. -/
theorem c7_shape_sorted_witness :
    (nearest (fun _ _ _ _ => 0) [[0], [1]] [[0], [1]] 1 none none none =
      .ok ([[0], [1]], [[(0 : EDist)], [0]])) ∧
    (([[0], [1]] : Stencil).length = ([[(0 : ℚ)], [1]] : List Pt).length ∧
     ([[(0 : EDist)], [0]]).length = ([[(0 : ℚ)], [1]] : List Pt).length ∧
     (∀ r ∈ ([[0], [1]] : Stencil), r.length = 1) ∧
     (∀ r ∈ ([[(0 : EDist)], [0]] : List (List EDist)),
        r.length = 1 ∧ List.Sorted (· ≤ ·) r)) :=
  ⟨by with_unfolding_all rfl,
   c7_shape_sorted (fun _ _ _ _ => 0) [[0], [1]] [[0], [1]] 1 none none
     none [[0], [1]] [[(0 : EDist)], [0]] (by with_unfolding_all rfl)⟩

/-! ### Claim C3: the boundary-free fast path matches brute force -/

theorem kdtreeQuery_length {pop : List Pt} {qi : Pt} {k : ℕ}
    (hk : k ≤ pop.length) : (kdtreeQuery pop qi k).length = k := by
  rw [kdtreeQuery, List.length_take, argsortQ_length, keyOf_length]
  omega

theorem nbRowFn_eq_bruteNN (pop : List Pt) (N : ℕ) (qi : Pt)
    (hN : N ≤ pop.length) :
    nbRowFn kdtreeQuery pop N qi = bruteNN pop qi N := by
  rw [bruteNN_eq_kdtreeQuery]
  match N with
  | 0 => rfl
  | 1 =>
    have hlen : (kdtreeQuery pop qi 1).length = 1 := kdtreeQuery_length hN
    have hhead : [(kdtreeQuery pop qi 1).headD 0] = kdtreeQuery pop qi 1 := by
      cases hl : kdtreeQuery pop qi 1 with
      | nil => rw [hl] at hlen; cases hlen
      | cons a l =>
        rw [hl] at hlen
        have hl0 : l = [] := by simpa using hlen
        subst hl0
        rfl
    exact hhead
  | n + 2 => rfl

theorem bruteNN_nodup (pop : List Pt) (qi : Pt) (N : ℕ) :
    (bruteNN pop qi N).Nodup := by
  rw [bruteNN_eq_kdtreeQuery, kdtreeQuery]
  exact (argsortQ_nodup _).sublist (List.take_sublist _ _)

theorem bruteNN_mem_lt {pop : List Pt} {qi : Pt} {N j : ℕ}
    (hj : j ∈ bruteNN pop qi N) : j < pop.length := by
  rw [bruteNN_eq_kdtreeQuery, kdtreeQuery] at hj
  have := mem_argsortQ.1 (List.mem_of_mem_take hj)
  rwa [keyOf_length] at this

theorem bruteNN_sorted_dists (pop : List Pt) (qi : Pt) (N : ℕ) :
    List.Sorted (· ≤ ·)
      ((bruteNN pop qi N).map (fun j => sqdist qi (pop.getD j []))) := by
  rw [List.Sorted, List.pairwise_map]
  have hs : List.Sorted (idxRel (keyOf pop qi)) (bruteNN pop qi N) := by
    rw [bruteNN_eq_kdtreeQuery, kdtreeQuery]
    exact (argsortQ_sorted _).sublist (List.take_sublist _ _)
  refine hs.imp_of_mem ?_
  intro a b ha hb hr
  have hlta : a < pop.length := bruteNN_mem_lt ha
  have hltb : b < pop.length := bruteNN_mem_lt hb
  have hle := idxRel_getD_le hr
  rw [getD_keyOf hlta, getD_keyOf hltb] at hle
  exact_mod_cast hle

/-- C3: with no boundary and no exclusion set and `0 ≤ N ≤ P`, `nearest`
returns, for each query point, exactly `N` pairwise-distinct indices
into the population, ordered by non-decreasing distance from the query
point, equal to the brute-force nearest-neighbor computation. -/
theorem c3_fastpath_bruteforce (icount : ICount) (query pop : List Pt)
    (N : ℕ) (smp : Option (List (List ℤ))) (hN : N ≤ pop.length) :
    ∃ nb ds, nearest icount query pop N none smp none = .ok (nb, ds) ∧
      nb = query.map (fun qi => bruteNN pop qi N) ∧
      (∀ r ∈ nb, r.length = N ∧ r.Nodup ∧ ∀ j ∈ r, j < pop.length) ∧
      (∀ (i : ℕ) (qi : Pt) (r : List ℕ), query[i]? = some qi →
        nb[i]? = some r →
        List.Sorted (· ≤ ·)
          (r.map (fun j => sqdist qi (pop.getD j [])))) := by
  have hNP : ¬ N > pop.length := by omega
  have hnb : query.map (nbRowFn kdtreeQuery pop N) =
      query.map (fun qi => bruteNN pop qi N) :=
    List.map_congr_left (fun qi _ => nbRowFn_eq_bruteNN pop N qi hN)
  have hmain : nearest icount query pop N none smp none =
      .ok (query.map (fun qi => bruteNN pop qi N),
        (query.zip (query.map (nbRowFn kdtreeQuery pop N))).map
          (dRowFn pop)) := by
    rw [nearest, nearestAux_unfold kdtreeQuery icount query pop N none smp
      none hNP]
    simp only [Option.isNone_none, Bool.and_self]
    rw [if_pos trivial, hnb]
  refine ⟨query.map (fun qi => bruteNN pop qi N),
    (query.zip (query.map (nbRowFn kdtreeQuery pop N))).map (dRowFn pop),
    hmain, rfl, ?_, ?_⟩
  · intro r hr
    obtain ⟨qi, -, rfl⟩ := List.mem_map.1 hr
    refine ⟨?_, bruteNN_nodup pop qi N, fun j hj => bruteNN_mem_lt hj⟩
    rw [← nbRowFn_eq_bruteNN pop N qi hN]
    exact nbRowFn_length qi hNP
  · intro i qi r hqi hr
    rw [List.getElem?_map, hqi, Option.map_some'] at hr
    cases Option.some.inj hr
    exact bruteNN_sorted_dists pop qi N

/-- Witness for C3 on three collinear points with `N = 2`. -/
theorem c3_fastpath_bruteforce_witness :
    2 ≤ ([[(0 : ℚ)], [1], [3]] : List Pt).length ∧
    (∃ nb ds, nearest (fun _ _ _ _ => 0) [[1], [2]] [[0], [1], [3]] 2 none
        none none = .ok (nb, ds) ∧
      nb = ([[1], [2]] : List Pt).map
        (fun qi => bruteNN [[0], [1], [3]] qi 2) ∧
      (∀ r ∈ nb, r.length = 2 ∧ r.Nodup ∧
        ∀ j ∈ r, j < ([[(0 : ℚ)], [1], [3]] : List Pt).length) ∧
      (∀ (i : ℕ) (qi : Pt) (r : List ℕ),
        ([[(1 : ℚ)], [2]] : List Pt)[i]? = some qi → nb[i]? = some r →
        List.Sorted (· ≤ ·)
          (r.map (fun j =>
            sqdist qi (([[(0 : ℚ)], [1], [3]] : List Pt).getD j []))))) :=
  ⟨by decide,
   c3_fastpath_bruteforce (fun _ _ _ _ => 0) [[1], [2]] [[0], [1], [3]] 2
     none (by decide)⟩

/-! ### Claim C6: connectivity is the node connectivity of the edge graph -/

theorem replicate_zip (k : ℕ) :
    ∀ row : List ℕ, (List.replicate row.length k).zip row =
      row.map (fun j => (k, j)) := by
  intro row
  induction row with
  | nil => rfl
  | cons j row ih => simp [List.replicate, ih]

theorem edges_aux :
    ∀ (st : Stencil) (S c : ℕ), (∀ r ∈ st, r.length = S) →
      ((((List.range st.length).map
          (fun i => List.replicate S (i + c))).flatten).zip st.flatten) =
        edgePairsFrom c st := by
  intro st
  induction st with
  | nil => intro S c _; rfl
  | cons row rest ih =>
    intro S c hrect
    have hrow : row.length = S := hrect row (List.mem_cons_self _ _)
    rw [List.length_cons, List.range_succ_eq_map, List.map_cons,
      List.map_map, List.flatten_cons]
    have hcomp : ((fun i => List.replicate S (i + c)) ∘ Nat.succ) =
        fun i => List.replicate S (i + (c + 1)) := by
      funext i
      show List.replicate S (i + 1 + c) = List.replicate S (i + (c + 1))
      congr 1
      omega
    rw [hcomp, List.flatten, ← List.flatten]
    show (List.replicate S (0 + c) ++
        ((List.range rest.length).map
          (fun i => List.replicate S (i + (c + 1)))).flatten).zip
        (row ++ rest.flatten) = _
    have hlen : (List.replicate S (0 + c)).length = row.length := by
      rw [List.length_replicate, hrow]
    rw [List.zip_append hlen]
    have hzc : (List.replicate S (0 + c)).zip row =
        row.map (fun j => (c, j)) := by
      have h0 : (0 : ℕ) + c = c := by omega
      rw [h0, ← hrow, replicate_zip]
    rw [hzc, ih S (c + 1)
      (fun r hr => hrect r (List.mem_cons_of_mem _ hr))]
    rfl

theorem stencils_to_edges_eq (st : Stencil)
    (hrect : ∀ r ∈ st, r.length = (st.headD []).length) :
    stencils_to_edges st = edgePairs st := by
  rw [stencils_to_edges, edgePairs]
  have h := edges_aux st (st.headD []).length 0 hrect
  have hcomp : (fun i => List.replicate (st.headD []).length (i + 0)) =
      fun i => List.replicate (st.headD []).length i := by
    funext i
    congr 1
  rw [← hcomp]
  exact h

theorem foldr_min_le {l : List ℕ} {x init : ℕ} (hx : x ∈ l) :
    l.foldr min init ≤ x := by
  induction l with
  | nil => cases hx
  | cons a l ih =>
    rcases List.mem_cons.1 hx with rfl | hx'
    · exact min_le_left _ _
    · exact le_trans (min_le_right _ _) (ih hx')

theorem nodeConnectivity_degenerate (E : List (ℕ × ℕ))
    (h : connectedOnB E (vertexList E) = false ∨
      (vertexList E).length < 2) :
    nodeConnectivity E = 0 := by
  rw [nodeConnectivity]
  have hmem : ([] : List ℕ) ∈ (vertexList E).sublists.filter (fun S =>
      let R := (vertexList E).filter (fun v => !S.contains v)
      decide (R.length < 2) || !connectedOnB E R) := by
    rw [List.mem_filter]
    constructor
    · rw [List.mem_sublists]
      exact List.nil_sublist _
    · have hfil : (vertexList E).filter
          (fun v => !(([] : List ℕ).contains v)) = vertexList E := by
        apply List.filter_eq_self.2
        intro a _
        rfl
      show (decide (((vertexList E).filter
          (fun v => !(([] : List ℕ).contains v))).length < 2) ||
        !connectedOnB E ((vertexList E).filter
          (fun v => !(([] : List ℕ).contains v)))) = true
      rw [hfil]
      rcases h with h | h
      · rw [h]
        simp
      · rw [decide_eq_true h]
        simp
  have h0 : 0 ∈ ((vertexList E).sublists.filter (fun S =>
      let R := (vertexList E).filter (fun v => !S.contains v)
      decide (R.length < 2) || !connectedOnB E R)).map List.length := by
    exact List.mem_map.2 ⟨[], hmem, rfl⟩
  exact Nat.le_zero.1 (foldr_min_le h0)

/-- C6: `connectivity(stencils)` is the node connectivity of the
undirected graph whose edges are all (row index, entry) pairs of the
stencil table, and it is 0 whenever that graph is disconnected or has
fewer than two vertices. -/
theorem c6_connectivity (st : Stencil)
    (hrect : ∀ r ∈ st, r.length = (st.headD []).length) :
    connectivity st = nodeConnectivity (edgePairs st) ∧
    ((connectedOnB (edgePairs st) (vertexList (edgePairs st)) = false ∨
      (vertexList (edgePairs st)).length < 2) →
      connectivity st = 0) := by
  have he : connectivity st = nodeConnectivity (edgePairs st) := by
    rw [connectivity, stencils_to_edges_eq st hrect]
  exact ⟨he, fun h => by rw [he]; exact nodeConnectivity_degenerate _ h⟩

/-- Witness for C6 on the two-node stencil `[[1],[0]]`. -/
theorem c6_connectivity_witness :
    (∀ r ∈ ([[1], [0]] : Stencil),
      r.length = (([[1], [0]] : Stencil).headD []).length) ∧
    connectivity [[1], [0]] = nodeConnectivity (edgePairs [[1], [0]]) ∧
    ((connectedOnB (edgePairs [[1], [0]])
        (vertexList (edgePairs [[1], [0]])) = false ∨
      (vertexList (edgePairs [[1], [0]])).length < 2) →
      connectivity [[1], [0]] = 0) :=
  ⟨by decide, c6_connectivity [[1], [0]] (by decide)⟩

/-! ### Claim C4: connectivity-target mode finds the smallest passing size -/

theorem nearest_error_ne_cannotConnect {icount : ICount}
    {query pop : List Pt} {N : ℕ} {vert : Option (List Pt)}
    {smp : Option (List (List ℤ))} {excl : Option (List ℕ)}
    {e : StencilError}
    (h : nearest icount query pop N vert smp excl = .error e) :
    e ≠ .cannotConnect := by
  rcases nearest_error_classify icount query pop N vert smp excl e h with
    rfl | ⟨i, qi, -, rfl⟩ <;> intro hc <;> exact StencilError.noConfusion hc

theorem snLoop_spec (icount : ICount) (nodes : List Pt)
    (vert : Option (List Pt)) (smp : Option (List (List ℤ))) (c : ℕ) :
    ∀ (fuel n : ℕ) (s : Stencil), 2 ≤ n → n ≤ nodes.length →
      (∃ dx, nearest icount nodes nodes n vert smp none = .ok (s, dx)) →
      (∀ s', snLoop icount nodes vert smp c fuel n s = .ok s' →
        c ≤ connectivity s' ∧
        ∃ k, n ≤ k ∧ k ≤ nodes.length ∧
          (∃ dx, nearest icount nodes nodes k vert smp none =
            .ok (s', dx)) ∧
          ∀ j, n ≤ j → j < k →
            ∃ t dx, nearest icount nodes nodes j vert smp none =
              .ok (t, dx) ∧ connectivity t < c) ∧
      (snLoop icount nodes vert smp c fuel n s = .error .cannotConnect →
        ∀ j, n ≤ j → j ≤ nodes.length →
          ∃ t dx, nearest icount nodes nodes j vert smp none =
            .ok (t, dx) ∧ connectivity t < c) ∧
      (nodes.length - n + 1 ≤ fuel →
        (∀ j, n ≤ j → j ≤ nodes.length →
          ∃ t dx, nearest icount nodes nodes j vert smp none =
            .ok (t, dx) ∧ connectivity t < c) →
        snLoop icount nodes vert smp c fuel n s =
          .error .cannotConnect) := by
  intro fuel
  induction fuel with
  | zero =>
    intro n s h2 hnl hex
    obtain ⟨dx0, hs⟩ := hex
    refine ⟨?_, ?_, ?_⟩
    · intro s' h
      simp only [snLoop] at h
      by_cases hc : connectivity s < c
      · rw [if_pos hc] at h; cases h
      · rw [if_neg hc] at h
        cases h
        exact ⟨le_of_not_lt hc, n, le_refl n, hnl, ⟨dx0, hs⟩,
          fun j hj hjk => absurd hjk (by omega)⟩
    · intro h
      simp only [snLoop] at h
      by_cases hc : connectivity s < c
      · rw [if_pos hc] at h
        simp at h
      · rw [if_neg hc] at h; cases h
    · intro hf
      exact absurd hf (by omega)
  | succ f ih =>
    intro n s h2 hnl hex
    obtain ⟨dx0, hs⟩ := hex
    by_cases hc : connectivity s < c
    · by_cases hlen : nodes.length < n + 1
      · have hres : snLoop icount nodes vert smp c (f + 1) n s =
            .error .cannotConnect := by
          simp only [snLoop]
          rw [if_pos hc, if_pos hlen]
        refine ⟨?_, ?_, ?_⟩
        · intro s' h
          rw [hres] at h
          cases h
        · intro _ j hj hjl
          have hjn : j = n := by omega
          subst hjn
          exact ⟨s, dx0, hs, hc⟩
        · intro _ _
          exact hres
      · cases hne : nearest icount nodes nodes (n + 1) vert smp none with
        | error e =>
          have hres : snLoop icount nodes vert smp c (f + 1) n s =
              .error e := by
            simp only [snLoop]
            rw [if_pos hc, if_neg hlen, hne]
          have hnecc := nearest_error_ne_cannotConnect hne
          refine ⟨?_, ?_, ?_⟩
          · intro s' h
            rw [hres] at h
            cases h
          · intro h
            rw [hres] at h
            exact (hnecc (Except.error.inj h)).elim
          · intro hf hbad
            obtain ⟨t, dx, ht, -⟩ := hbad (n + 1) (by omega) (by omega)
            rw [hne] at ht
            cases ht
        | ok p =>
          cases p with
          | mk s1 dx1 =>
            have hres : snLoop icount nodes vert smp c (f + 1) n s =
                snLoop icount nodes vert smp c f (n + 1) s1 := by
              simp only [snLoop]
              rw [if_pos hc, if_neg hlen, hne]
            have hih := ih (n + 1) s1 (by omega) (by omega) ⟨dx1, hne⟩
            refine ⟨?_, ?_, ?_⟩
            · intro s' h
              rw [hres] at h
              obtain ⟨hcn, k, hk1, hk2, hkex, hpred⟩ := hih.1 s' h
              refine ⟨hcn, k, by omega, hk2, hkex, ?_⟩
              intro j hj hjk
              rcases Nat.eq_or_lt_of_le hj with rfl | hlt
              · exact ⟨s, dx0, hs, hc⟩
              · exact hpred j (by omega) hjk
            · intro h j hj hjl
              rw [hres] at h
              rcases Nat.eq_or_lt_of_le hj with rfl | hlt
              · exact ⟨s, dx0, hs, hc⟩
              · exact hih.2.1 h j (by omega) hjl
            · intro hf hbad
              rw [hres]
              exact hih.2.2 (by omega)
                (fun j hj hjl => hbad j (by omega) hjl)
    · have hres : snLoop icount nodes vert smp c (f + 1) n s = .ok s := by
        simp only [snLoop]
        rw [if_neg hc]
      refine ⟨?_, ?_, ?_⟩
      · intro s' h
        rw [hres] at h
        cases h
        exact ⟨le_of_not_lt hc, n, le_refl n, hnl, ⟨dx0, hs⟩,
          fun j hj hjk => absurd hjk (by omega)⟩
      · intro h
        rw [hres] at h
        cases h
      · intro hf hbad
        obtain ⟨t, dx, ht, hcon⟩ := hbad n (le_refl n) hnl
        rw [hs] at ht
        have hts : t = s := (congrArg Prod.fst (Except.ok.inj ht)).symm
        rw [hts] at hcon
        exact absurd hcon hc

/-- C4: in connectivity-target mode on at least two nodes,
`stencil_network` tries sizes 2, 3, … in order; a normal return is the
stencil of the first size whose connectivity reaches `C` (every smaller
tested size fell short), and the "cannot create a stencil with the
desired connectivity" error is raised exactly when every size up to the
node count falls short. -/
theorem c4_connectivity_mode (icount : ICount) (nodes : List Pt)
    (vert : Option (List Pt)) (smp : Option (List (List ℤ))) (c : ℕ)
    (Nopt : Option ℕ) (h2 : 2 ≤ nodes.length) :
    (∀ s', stencil_network icount nodes (some c) Nopt vert smp =
        .ok s' →
      c ≤ connectivity s' ∧
      ∃ k, 2 ≤ k ∧ k ≤ nodes.length ∧
        (∃ dx, nearest icount nodes nodes k vert smp none =
          .ok (s', dx)) ∧
        ∀ j, 2 ≤ j → j < k →
          ∃ t dx, nearest icount nodes nodes j vert smp none =
            .ok (t, dx) ∧ connectivity t < c) ∧
    (stencil_network icount nodes (some c) Nopt vert smp =
        .error .cannotConnect →
      ∀ j, 2 ≤ j → j ≤ nodes.length →
        ∃ t dx, nearest icount nodes nodes j vert smp none =
          .ok (t, dx) ∧ connectivity t < c) ∧
    ((∀ j, 2 ≤ j → j ≤ nodes.length →
        ∃ t dx, nearest icount nodes nodes j vert smp none =
          .ok (t, dx) ∧ connectivity t < c) →
      stencil_network icount nodes (some c) Nopt vert smp =
        .error .cannotConnect) := by
  cases hne2 : nearest icount nodes nodes 2 vert smp none with
  | error e =>
    have hres : stencil_network icount nodes (some c) Nopt vert smp =
        .error e := by
      simp only [stencil_network]
      rw [hne2]
    have hnecc := nearest_error_ne_cannotConnect hne2
    refine ⟨?_, ?_, ?_⟩
    · intro s' h
      rw [hres] at h
      cases h
    · intro h
      rw [hres] at h
      exact (hnecc (Except.error.inj h)).elim
    · intro hbad
      obtain ⟨t, dx, ht, -⟩ := hbad 2 (le_refl 2) h2
      rw [hne2] at ht
      cases ht
  | ok p =>
    cases p with
    | mk s0 dx0 =>
      have hres : stencil_network icount nodes (some c) Nopt vert smp =
          snLoop icount nodes vert smp c nodes.length 2 s0 := by
        simp only [stencil_network]
        rw [hne2]
      have hspec := snLoop_spec icount nodes vert smp c nodes.length 2 s0
        (le_refl 2) h2 ⟨dx0, hne2⟩
      refine ⟨?_, ?_, ?_⟩
      · intro s' h
        rw [hres] at h
        exact hspec.1 s' h
      · intro h
        rw [hres] at h
        exact hspec.2.1 h
      · intro hbad
        rw [hres]
        exact hspec.2.2 (by omega) hbad

/-- Witness for C4: two nodes on a line with connectivity target 1 —
the initial size 2 already satisfies the target. -/
theorem c4_connectivity_mode_witness :
    2 ≤ ([[(0 : ℚ)], [1]] : List Pt).length ∧
    (∀ s', stencil_network (fun _ _ _ _ => 0) [[0], [1]] (some 1) none
        none none = .ok s' →
      1 ≤ connectivity s' ∧
      ∃ k, 2 ≤ k ∧ k ≤ ([[(0 : ℚ)], [1]] : List Pt).length ∧
        (∃ dx, nearest (fun _ _ _ _ => 0) [[0], [1]] [[0], [1]] k none
          none none = .ok (s', dx)) ∧
        ∀ j, 2 ≤ j → j < k →
          ∃ t dx, nearest (fun _ _ _ _ => 0) [[0], [1]] [[0], [1]] j none
            none none = .ok (t, dx) ∧ connectivity t < 1) :=
  ⟨by decide,
   (c4_connectivity_mode (fun _ _ _ _ => 0) [[0], [1]] none none 1 none
     (by decide)).1⟩

end RBF
